import Mathlib

/-!
Verification of the synthesis-and-alignment pipeline of `main.py`
(script → per-chunk TTS → measured durations → timeline accumulation →
SRT serialization/parsing → audio concatenation).

Strings are modelled as `List Char`; timestamps and durations as `ℚ`
(the source uses Python floats; all claims are about the exact
arithmetic the code performs, so exact rationals are used).  External
collaborators (VOICEVOX TTS, ffprobe, ffmpeg, the filesystem) are
modelled as oracles/parameters: the duration prober is a function from
chunk index to measured duration, the media encoder is a success flag,
and discovered files are an input list.
-/

/-- Double-quote character (written via its code point). -/
def dquote : Char := Char.ofNat 34

/-- Backslash character (written via its code point). -/
def bslash : Char := Char.ofNat 92

/-- Single-quote character used by the ffmpeg concat manifest lines. -/
def squote : Char := Char.ofNat 39

/-- ASCII digit character for a value `0 ≤ n ≤ 9`. -/
def digitChar (n : Nat) : Char := Char.ofNat (48 + n)

/-- ASCII digit test, matching the characters the regex `\d` accepts here. -/
def isDigitChar (c : Char) : Bool := 48 ≤ c.toNat && c.toNat ≤ 57

/-- Numeric value of an ASCII digit character. -/
def digitVal (c : Char) : Nat := c.toNat - 48

/-- Python `str.strip` / regex `\s` whitespace class (ASCII part:
space, tab, newline, carriage return, vertical tab, form feed). -/
def isPySpace (c : Char) : Bool :=
  c = ' ' || c = '\t' || c = '\n' || c = '\r' || c.toNat = 11 || c.toNat = 12

/-- Line-break characters recognized by Python `str.splitlines`. -/
def isLineBreak (c : Char) : Bool :=
  c = '\n' || c = '\r' || c.toNat = 11 || c.toNat = 12 || c.toNat = 28 ||
  c.toNat = 29 || c.toNat = 30 || c.toNat = 133 || c.toNat = 8232 || c.toNat = 8233

/-- Decimal digits of `n`, accumulator/fuel form (fuel `n` always suffices,
and keeps the definition structurally recursive so it reduces in the kernel). -/
def natToCharsGo (fuel n : Nat) (acc : List Char) : List Char :=
  match fuel with
  | 0 => acc
  | f + 1 => if n < 10 then digitChar n :: acc
             else natToCharsGo f (n / 10) (digitChar (n % 10) :: acc)

/-- Decimal representation of a natural number, as Python `str(n)` produces. -/
def natToChars (n : Nat) : List Char := natToCharsGo (n + 1) n []

/-- Zero-padded decimal rendering, as Python `f"{n:0Nd}"` (and `strftime`
two-digit fields) produce. -/
def padNum (width n : Nat) : List Char :=
  List.replicate (width - (natToChars n).length) '0' ++ natToChars n

/-- Value of a digit string read left to right. -/
def digitsVal (l : List Char) : Nat := l.foldl (fun a c => 10 * a + digitVal c) 0

/-- Parses a nonempty all-digit string; `none` models Python `int()`
raising `ValueError`. -/
def parseDigits (l : List Char) : Option Nat :=
  if l.isEmpty then none
  else if l.all isDigitChar then some (digitsVal l) else none

/-- Python `str.lstrip()`. -/
def pyLStrip (l : List Char) : List Char := l.dropWhile isPySpace

/-- Python `str.strip()`: whitespace removed from both ends. -/
def pyStrip (l : List Char) : List Char :=
  ((pyLStrip l).reverse.dropWhile isPySpace).reverse

/-- Python `str.lower()` (ASCII case folding suffices for the paths used). -/
def pyLower (l : List Char) : List Char := l.map Char.toLower

/-- Python `int(s)`: strip whitespace, optional sign, decimal digits
(digit-grouping underscores are not modelled; no input here contains them). -/
def int_of_string (l : List Char) : Option Int :=
  let t := pyStrip l
  if t.headD ' ' = '-' then (parseDigits t.tail).map (fun n => -(n : Int))
  else if t.headD ' ' = '+' then (parseDigits t.tail).map (fun n => (n : Int))
  else (parseDigits t).map (fun n => (n : Int))

/-- Worker for `re.split` on a single-character class: splits at every
separator character, keeping empty pieces, as Python does. -/
def pySplitSepGo (p : Char → Bool) (acc : List Char) : List Char → List (List Char)
  | [] => [acc.reverse]
  | c :: rest =>
    if p c then acc.reverse :: pySplitSepGo p [] rest
    else pySplitSepGo p (c :: acc) rest

/-- Python `re.split('[..]', s)` for a single-character class `p`. -/
def pySplitSep (p : Char → Bool) (l : List Char) : List (List Char) :=
  pySplitSepGo p [] l

/-- Worker for Python `str.splitlines`: `\r\n` counts as one break (the
`skipNL` flag records that the previous character was a line-ending `\r`,
so an immediately following `\n` is part of the same break), and a
trailing break produces no trailing empty line. -/
def splitlinesGo (skipNL : Bool) (acc : List Char) : List Char → List (List Char)
  | [] => [acc.reverse]
  | c :: rest =>
    if skipNL && c = '\n' then
      if rest.isEmpty then [] else splitlinesGo false [] rest
    else if isLineBreak c then
      if rest.isEmpty then [acc.reverse]
      else acc.reverse :: splitlinesGo (c = '\r') [] rest
    else splitlinesGo false (c :: acc) rest

/-- Python `str.splitlines()`. -/
def pySplitlines (l : List Char) : List (List Char) :=
  if l.isEmpty then [] else splitlinesGo false [] l

/-- Worker for `re.split(r'\n\s*\n', s)`.  `acc` holds the current piece
reversed.  `run` (reversed; empty when scanning normally) holds a
whitespace run opened by a newline: the regex `\n\s*\n` matches greedily,
consuming the run up to its last newline, iff the run contains a second
newline; otherwise the run's characters belong to the current piece. -/
def splitBlankGo (acc run : List Char) : List Char → List (List Char)
  | [] =>
    if 2 ≤ run.count '\n' then
      [acc.reverse, (run.takeWhile (fun c => c ≠ '\n')).reverse]
    else [(run ++ acc).reverse]
  | c :: rest =>
    if run.isEmpty then
      if c = '\n' then splitBlankGo acc [c] rest
      else splitBlankGo (c :: acc) [] rest
    else
      if isPySpace c then splitBlankGo acc (c :: run) rest
      else if 2 ≤ run.count '\n' then
        acc.reverse :: splitBlankGo (c :: run.takeWhile (fun c => c ≠ '\n')) [] rest
      else splitBlankGo (c :: (run ++ acc)) [] rest

/-- Python `re.split(r'\n\s*\n', s)`, the blank-line block splitter used by
`parse_srt` and `read_script_from_srt` (src/main.py lines 150 and 179). -/
def splitBlank (l : List Char) : List (List Char) := splitBlankGo [] [] l

/-- Python `sep.join(xs)`. -/
def pyJoin (sep : List Char) : List (List Char) → List Char
  | [] => []
  | [x] => x
  | x :: xs => x ++ sep ++ pyJoin sep xs

/-- Worker for Python `str.replace(old, new)` with fuel (fuel `|s|`
always suffices); non-overlapping replacement scanning left to right. -/
def pyReplaceGo (old new : List Char) : Nat → List Char → List Char
  | 0, l => l
  | fuel + 1, l =>
    match l with
    | [] => []
    | c :: r =>
      if old.isEmpty then c :: pyReplaceGo old new fuel r
      else if old.isPrefixOf l then new ++ pyReplaceGo old new fuel (l.drop old.length)
      else c :: pyReplaceGo old new fuel r

/-- Python `s.replace(old, new)` (for nonempty `old`; the degenerate empty
pattern, which Python treats specially, does not occur in this program). -/
def pyReplace (old new s : List Char) : List Char := pyReplaceGo old new s.length s

/-- Models `text.replace('"', '\\"')` from `parse_srt`
(src/main.py line 162): a backslash is inserted before each double quote. -/
def pyReplaceQuote : List Char → List Char
  | [] => []
  | c :: r => if c = dquote then bslash :: dquote :: pyReplaceQuote r
              else c :: pyReplaceQuote r

/-- Models the `emoji_map` dict of `preprocess_for_audio`
(src/main.py lines 30-33): sheep emoji to its Japanese reading. -/
def emoji_map : List (List Char × List Char) := [("🐑".data, "ひつじ".data)]

/-- Models `preprocess_for_audio` (src/main.py lines 25-36), parameterized
by the glyph map (the source fixes it to `emoji_map`): each mapped glyph is
replaced, in dict order, by its spoken form. -/
def preprocess_for_audio (emojiMap : List (List Char × List Char)) (text : List Char) : List Char :=
  emojiMap.foldl (fun t p => pyReplace p.1 p.2 t) text

/-- Models `time.gmtime(t)`'s truncation of a timestamp to whole seconds
(the inputs of interest are nonnegative). -/
def srt_total_seconds (t : ℚ) : Nat := (⌊t⌋).toNat

/-- Models `int(t % 1 * 1000)` from `format_srt` (src/main.py line 104):
the millisecond remainder, truncated. -/
def srt_millis (t : ℚ) : Nat := (⌊(t - (⌊t⌋ : ℚ)) * 1000⌋).toNat

/-- Models `time.strftime('%H:%M:%S', time.gmtime(t))`: the hour of day is
the total-hour count modulo 24 (POSIX time has no leap seconds). -/
def srt_hms (total : Nat) : List Char :=
  padNum 2 (total / 3600 % 24) ++ ':' :: padNum 2 (total % 3600 / 60) ++
  ':' :: padNum 2 (total % 60)

/-- Models one timestamp rendered by `format_srt` (src/main.py lines
104-105): `strftime('%H:%M:%S', gmtime(t))` + `f",{int(t % 1 * 1000):03d}"`. -/
def srt_timestamp (t : ℚ) : List Char :=
  srt_hms (srt_total_seconds t) ++ ',' :: padNum 3 (srt_millis t)

/-- The body of one SRT block as `format_srt` renders it, without the
trailing blank separator: index line, timing line, text line. -/
def srt_core (i : Nat) (s e : ℚ) (t : List Char) : List Char :=
  natToChars i ++ '\n' :: (srt_timestamp s ++ " --> ".data ++ srt_timestamp e) ++ '\n' :: t

/-- Models the loop of `format_srt` (src/main.py lines 100-107) from
1-based index `i`: every entry contributes its block plus a blank line. -/
def format_srt_from (i : Nat) : List (ℚ × ℚ × List Char) → List Char
  | [] => []
  | (s, e, t) :: rest => srt_core i s e t ++ '\n' :: '\n' :: format_srt_from (i + 1) rest

/-- Models `format_srt` (src/main.py lines 100-107). -/
def format_srt (entries : List (ℚ × ℚ × List Char)) : List Char :=
  format_srt_from 1 entries

/-- Matches the fixed-width timestamp `\d{2}:\d{2}:\d{2},\d{3}` at the head
of the input, returning the twelve matched characters and the rest. -/
def matchTimestampChars : List Char → Option (List Char × List Char)
  | c1 :: c2 :: c3 :: c4 :: c5 :: c6 :: c7 :: c8 :: c9 :: c10 :: c11 :: c12 :: rest =>
    if isDigitChar c1 && isDigitChar c2 && c3 = ':' && isDigitChar c4 && isDigitChar c5 &&
       c6 = ':' && isDigitChar c7 && isDigitChar c8 && c9 = ',' && isDigitChar c10 &&
       isDigitChar c11 && isDigitChar c12 then
      some ([c1, c2, c3, c4, c5, c6, c7, c8, c9, c10, c11, c12], rest)
    else none
  | _ => none

/-- Models `re.match(r'(\d{2}:\d{2}:\d{2},\d{3})\s*-->\s*(\d{2}:\d{2}:\d{2},\d{3})', times)`
from `parse_srt` (src/main.py line 155): anchored at the start, trailing
input ignored; returns the two captured timestamps. -/
def matchTimesLine (times : List Char) : Option (List Char × List Char) :=
  match matchTimestampChars times with
  | none => none
  | some (s1, r1) =>
    match r1.dropWhile isPySpace with
    | '-' :: '-' :: '>' :: r2 =>
      match matchTimestampChars (r2.dropWhile isPySpace) with
      | some (s2, _) => some (s1, s2)
      | none => none
    | _ => none

/-- Separator class of `re.split('[:,]', time_str)`. -/
def isColonComma (c : Char) : Bool := c = ':' || c = ','

/-- Models `srt_time_to_seconds` (src/main.py lines 137-143).  `none`
models a `ValueError`: either the explicit raise when the split does not
give four fields, or `int()` failing on a non-numeric field. -/
def srt_time_to_seconds (time_str : List Char) : Option ℚ :=
  match pySplitSep isColonComma time_str with
  | [hours, minutes, seconds, millis] =>
    match int_of_string hours, int_of_string minutes, int_of_string seconds,
          int_of_string millis with
    | some h, some m, some s, some ms =>
      some ((h : ℚ) * 3600 + (m : ℚ) * 60 + (s : ℚ) + (ms : ℚ) / 1000)
    | _, _, _, _ => none
  | _ => none

/-- One parsed subtitle block, as the dict `parse_srt` builds
(keys `start`, `end`, `duration`, `text`; `end` is `stop` here since
`end` is a Lean keyword). -/
structure SrtSegment where
  start : ℚ
  stop : ℚ
  duration : ℚ
  text : List Char
deriving DecidableEq, Repr

/-- Models one iteration of the block loop of `parse_srt` (src/main.py
lines 151-168).  `none` models an uncaught `ValueError` from
`srt_time_to_seconds`; `some none` a skipped block (fewer than three
lines, or a timing line that fails the regex and is logged and skipped);
`some (some seg)` a parsed segment. -/
def parse_block (block : List Char) : Option (Option SrtSegment) :=
  match pySplitlines (pyStrip block) with
  | _ :: l1 :: l2 :: rest =>
    match matchTimesLine (pyStrip l1) with
    | none => some none
    | some (s1, s2) =>
      match srt_time_to_seconds s1, srt_time_to_seconds s2 with
      | some qs, some qe =>
        some (some ⟨qs, qe, qe - qs, pyReplaceQuote (pyJoin [' '] (l2 :: rest))⟩)
      | _, _ => none
  | _ => some none

/-- Models `parse_srt` (src/main.py lines 145-169), taking the file's
content: strip, split on blank-line boundaries, parse each block; a
`ValueError` anywhere aborts the call (`none`). -/
def parse_srt (content : List Char) : Option (List SrtSegment) :=
  ((splitBlank (pyStrip content)).mapM parse_block).map (List.filterMap id)

/-- The (start, end, text) triples of a parsed segment list. -/
def segTriples (segs : List SrtSegment) : List (ℚ × ℚ × List Char) :=
  segs.map fun g => (g.start, g.stop, g.text)

/-- Models one block of `read_script_from_srt` (src/main.py lines 180-188):
three or more lines give one chunk (lines from the third joined by spaces,
stripped); otherwise every non-blank, non-numeric-only line is a chunk. -/
def read_srt_block (block : List Char) : List (List Char) :=
  let lines := pySplitlines block
  if 3 ≤ lines.length then [pyStrip (pyJoin [' '] (lines.drop 2))]
  else lines.filterMap fun line =>
    let t := pyStrip line
    if t.isEmpty then none
    else if t.all isDigitChar then none
    else some t

/-- Models `read_script_from_srt` (src/main.py lines 171-189). -/
def read_script_from_srt (content : List Char) : List (List Char) :=
  (splitBlank (pyStrip content)).flatMap read_srt_block

/-- Models `read_script` (src/main.py lines 191-203), taking the script
path (for the extension dispatch) and the file content.  A `.txt` file is
iterated line by line (universal-newline text mode, so lines split on
newline); an unsupported extension logs a message and returns the empty
list. -/
def read_script (script_path content : List Char) : List (List Char) :=
  if List.isSuffixOf (".srt".data) (pyLower script_path) then
    read_script_from_srt content
  else if List.isSuffixOf (".txt".data) (pyLower script_path) then
    (pySplitSep (fun c => c = '\n') content).filterMap fun line =>
      let t := pyStrip line
      if t.isEmpty then none else some t
  else []

/-- Models the chunk loop of `process_script` (src/main.py lines 335-348):
chunk index `i`, running clock `current_time`.  Per chunk the text sent to
synthesis is the preprocessed line; the measured duration of the produced
audio is the oracle `durations i` (ffprobe is external); the subtitle entry
records `(start, start + duration, line)` with the original line, and the
clock advances to the end.  Returns (texts sent to TTS, srt_entries). -/
def process_script_loop (emojiMap : List (List Char × List Char)) (durations : Nat → ℚ) :
    Nat → ℚ → List (List Char) → List (List Char) × List (ℚ × ℚ × List Char)
  | _, _, [] => ([], [])
  | i, current_time, line :: rest =>
    let processed_text := preprocess_for_audio emojiMap line
    let duration := durations i
    let start_time := current_time
    let end_time := start_time + duration
    let tail := process_script_loop emojiMap durations (i + 1) end_time rest
    (processed_text :: tail.1, (start_time, end_time, line) :: tail.2)

/-- The chunk loop of `process_script` started as the source starts it:
index 0, clock `0.0`. -/
def process_script_sim (emojiMap : List (List Char × List Char)) (durations : Nat → ℚ)
    (lines : List (List Char)) : List (List Char) × List (ℚ × ℚ × List Char) :=
  process_script_loop emojiMap durations 0 0 lines

/-- Models the per-script part of `process_script` (src/main.py lines
317-353) up to the SRT serialization: extract chunks; if none, print and
return early (`none`, the script is skipped); otherwise run the chunk loop
and build the generated SRT content. -/
def process_script_result (emojiMap : List (List Char × List Char)) (durations : Nat → ℚ)
    (script_path content : List Char) : Option (List (ℚ × ℚ × List Char) × List Char) :=
  let lines := read_script script_path content
  if lines.isEmpty then none
  else
    let entries := (process_script_sim emojiMap durations lines).2
    some (entries, format_srt entries)

/-- Models the batch loop of `main` (src/main.py lines 401-402): each
discovered script is processed independently, in order. -/
def main_sim (emojiMap : List (List Char × List Char)) (durations : Nat → ℚ)
    (scripts : List (List Char × List Char)) :
    List (Option (List (ℚ × ℚ × List Char) × List Char)) :=
  scripts.map fun s => process_script_result emojiMap durations s.1 s.2

/-- Outcome of running a Python function in this program: normal return,
process termination via `sys.exit(code)`, or an uncaught exception. -/
inductive PyOutcome (α : Type) where
  | ok : α → PyOutcome α
  | exited : Nat → PyOutcome α
  | raised : PyOutcome α
deriving DecidableEq, Repr

/-- Models `os.path.basename` for the forward-slash paths this program
builds. -/
def wav_basename (f : List Char) : List Char :=
  (pySplitSep (fun c => c = '/') f).getLastD []

/-- Models the sort key of `merge_audio_files` (src/main.py line 117):
`int(os.path.basename(x).split('_')[1].split('.')[0])`.  `none` models the
exception Python would raise (IndexError on a name without `_`, or
ValueError from `int()`). -/
def sort_key (f : List Char) : Option Int :=
  match pySplitSep (fun c => c = '_') (wav_basename f) with
  | _ :: second :: _ => int_of_string ((pySplitSep (fun c => c = '.') second).headD [])
  | _ => none

/-- Models one line of the ffmpeg concat manifest `file_list.txt`
(src/main.py line 126), `f"file '{os.path.abspath(wav)}'\n"`, with
`os.path.abspath` modelled as prefixing the working directory. -/
def manifest_line (cwd wav : List Char) : List Char :=
  "file ".data ++ squote :: (cwd ++ '/' :: wav) ++ squote :: ['\n']

/-- Stable insertion into a sorted list: the new element goes before the
first element it compares `le` to, hence after any earlier-positioned
equal element. -/
def insertLe {α : Type} (le : α → α → Bool) (a : α) : List α → List α
  | [] => [a]
  | b :: r => if le a b then a :: b :: r else b :: insertLe le a r

/-- Stable sort (insertion sort).  Python's `list.sort` is Timsort, also a
stable sort; stable sorts agree extensionally, so this models
`wav_files.sort(key=...)` exactly. -/
def sortByLe {α : Type} (le : α → α → Bool) : List α → List α
  | [] => []
  | a :: r => insertLe le a (sortByLe le r)

/-- Models `merge_audio_files` (src/main.py lines 114-134).  `wav_files`
is the glob result (directory order is arbitrary); the files are sorted by
the numeric chunk index embedded in the filename (Python's stable sort);
with zero files it prints a message and returns `None` without producing a
narration track (`.ok none` — no `sys.exit`, no exception); otherwise it
writes the ordered manifest and invokes ffmpeg (`encoderOk` is the
external encoder's success; `check=True` raises on failure). -/
def merge_audio_files (cwd : List Char) (encoderOk : Bool) (wav_files : List (List Char)) :
    PyOutcome (Option (List (List Char))) :=
  match wav_files.mapM (fun f => (sort_key f).map (fun k => (k, f))) with
  | none => PyOutcome.raised
  | some keyed =>
    let sorted := (sortByLe (fun a b => decide (a.1 ≤ b.1)) keyed).map (fun p => p.2)
    if sorted.isEmpty then PyOutcome.ok none
    else if encoderOk then PyOutcome.ok (some (sorted.map (manifest_line cwd)))
    else PyOutcome.raised

/-- The audio artifact path `generate_audio_chunk` writes for chunk `i`
(src/main.py line 62): `f"wav/audio_{i}.wav"`. -/
def audio_file_name (i : Nat) : List Char :=
  "wav/audio_".data ++ natToChars i ++ ".wav".data

/-- A timestamp value exactly representable by the SRT rendering: a whole
number of milliseconds below 24 hours. -/
def msAligned (q : ℚ) : Prop := ∃ n : Nat, n < 86400000 ∧ q = (n : ℚ) / 1000

/-- Segment text that survives the SRT serialization unchanged: no
line-break characters, nonempty, not ending in whitespace (a trailing
whitespace run would be eaten by the block split / strip). -/
def goodTextB (t : List Char) : Bool :=
  (t.all fun c => !(isLineBreak c)) && !(isPySpace (t.getLastD ' '))

/-- Well-formedness of one (start, end, text) entry for the lossless
round-trip: both times millisecond-aligned below 24 h, good text. -/
def entryWF (p : ℚ × ℚ × List Char) : Prop :=
  msAligned p.1 ∧ msAligned p.2.1 ∧ goodTextB p.2.2 = true

/-- Structural facts about one rendered SRT block body that the block
splitter and line splitter proofs consume. -/
def CoreOK (core : List Char) : Prop :=
  ∃ a b t, core = a ++ '\n' :: b ++ '\n' :: t ∧
    a ≠ [] ∧ (∀ c ∈ a, isDigitChar c = true) ∧
    (∀ c ∈ b, isLineBreak c = false) ∧
    (∃ b0 b1, b = b0 :: b1 ∧ isPySpace b0 = false) ∧
    (∀ c ∈ t, isLineBreak c = false) ∧
    (∃ u cl, t = u ++ [cl] ∧ isPySpace cl = false)

/-- The list of rendered block bodies of `format_srt` from index `i`. -/
def srt_cores (i : Nat) : List (ℚ × ℚ × List Char) → List (List Char)
  | [] => []
  | (s, e, t) :: rest => srt_core i s e t :: srt_cores (i + 1) rest

/-- The segment record `parse_srt` recovers from a rendered entry. -/
def segOf (p : ℚ × ℚ × List Char) : SrtSegment :=
  ⟨p.1, p.2.1, p.2.1 - p.1, pyReplaceQuote p.2.2⟩

/-- Partial sums of the measured durations: the running clock of
`process_script` before chunk `k`, when chunk `j` has index `i0 + j`. -/
def durSum (ds : Nat → ℚ) (i0 : Nat) : Nat → ℚ
  | 0 => 0
  | k + 1 => durSum ds i0 k + ds (i0 + k)

/-! ## Character and digit lemmas -/

lemma digit_bounds {c : Char} (h : isDigitChar c = true) : 48 ≤ c.toNat ∧ c.toNat ≤ 57 := by
  simpa [isDigitChar, Bool.and_eq_true, decide_eq_true_eq] using h

lemma pyspace_toNat {c : Char} (h : isPySpace c = true) :
    c.toNat = 32 ∨ c.toNat = 9 ∨ c.toNat = 10 ∨ c.toNat = 13 ∨ c.toNat = 11 ∨ c.toNat = 12 := by
  simp only [isPySpace, Bool.or_eq_true, decide_eq_true_eq] at h
  rcases h with (((((h | h) | h) | h) | h) | h)
  · subst h; decide
  · subst h; decide
  · subst h; decide
  · subst h; decide
  · omega
  · omega

lemma linebreak_toNat {c : Char} (h : isLineBreak c = true) :
    c.toNat = 10 ∨ c.toNat = 13 ∨ c.toNat = 11 ∨ c.toNat = 12 ∨ c.toNat = 28 ∨
    c.toNat = 29 ∨ c.toNat = 30 ∨ c.toNat = 133 ∨ c.toNat = 8232 ∨ c.toNat = 8233 := by
  simp only [isLineBreak, Bool.or_eq_true, decide_eq_true_eq] at h
  rcases h with (((((((((h | h) | h) | h) | h) | h) | h) | h) | h) | h)
  · subst h; decide
  · subst h; decide
  all_goals omega

lemma digit_not_pyspace {c : Char} (h : isDigitChar c = true) : isPySpace c = false := by
  cases hps : isPySpace c
  · rfl
  · have := pyspace_toNat hps
    have := digit_bounds h
    omega

lemma digit_not_linebreak {c : Char} (h : isDigitChar c = true) : isLineBreak c = false := by
  cases hlb : isLineBreak c
  · rfl
  · have := linebreak_toNat hlb
    have := digit_bounds h
    omega

lemma digit_ne {c d : Char} (h : isDigitChar c = true) (hd : d.toNat < 48 ∨ 57 < d.toNat) :
    c ≠ d := by
  intro he
  subst he
  have := digit_bounds h
  omega

lemma digitChar_toNat {n : Nat} (h : n < 10) : (digitChar n).toNat = 48 + n := by
  interval_cases n <;> decide

lemma isDigitChar_digitChar {n : Nat} (h : n < 10) : isDigitChar (digitChar n) = true := by
  simp [isDigitChar, digitChar_toNat h, Bool.and_eq_true, decide_eq_true_eq]
  omega

lemma digitVal_digitChar {n : Nat} (h : n < 10) : digitVal (digitChar n) = n := by
  simp [digitVal, digitChar_toNat h]

/-! ## Decimal numeral lemmas -/

lemma natToCharsGo_irrel : ∀ n fuel fuel' acc, n < fuel → n < fuel' →
    natToCharsGo fuel n acc = natToCharsGo fuel' n acc := by
  intro n
  induction n using Nat.strong_induction_on with
  | _ n ih =>
    intro fuel fuel' acc hf hf'
    match fuel, fuel' with
    | f + 1, f' + 1 =>
      simp only [natToCharsGo]
      by_cases h10 : n < 10
      · simp [h10]
      · simp only [h10, if_false]
        exact ih (n / 10) (Nat.div_lt_self (by omega) (by omega)) f f' _
          (by have := Nat.div_lt_self (show 0 < n by omega) (show 1 < 10 by omega); omega)
          (by have := Nat.div_lt_self (show 0 < n by omega) (show 1 < 10 by omega); omega)

lemma natToCharsGo_append : ∀ n fuel acc, n < fuel →
    natToCharsGo fuel n acc = natToCharsGo fuel n [] ++ acc := by
  intro n
  induction n using Nat.strong_induction_on with
  | _ n ih =>
    intro fuel acc hf
    match fuel with
    | f + 1 =>
      simp only [natToCharsGo]
      by_cases h10 : n < 10
      · simp [h10]
      · simp only [h10, if_false]
        have hlt : n / 10 < n := Nat.div_lt_self (by omega) (by omega)
        have hlt' : n / 10 < f := by omega
        rw [ih (n / 10) hlt f _ hlt', ih (n / 10) hlt f [digitChar (n % 10)] hlt']
        simp

lemma natToChars_eq (n : Nat) : natToChars n =
    if n < 10 then [digitChar n] else natToChars (n / 10) ++ [digitChar (n % 10)] := by
  by_cases h10 : n < 10
  · simp [natToChars, natToCharsGo, h10]
  · have hlt : n / 10 < n := Nat.div_lt_self (by omega) (by omega)
    have h1 : natToChars n = natToCharsGo n (n / 10) [digitChar (n % 10)] := by
      show natToCharsGo (n + 1) n [] = _
      simp only [natToCharsGo, h10, if_false]
    rw [h1, natToCharsGo_append (n / 10) n _ (by omega),
        natToCharsGo_irrel (n / 10) n (n / 10 + 1) [] (by omega) (by omega)]
    simp only [h10, if_false]
    rfl

lemma natToChars_ne_nil (n : Nat) : natToChars n ≠ [] := by
  rw [natToChars_eq]
  by_cases h10 : n < 10 <;> simp [h10]

lemma natToChars_digits (n : Nat) : ∀ c ∈ natToChars n, isDigitChar c = true := by
  induction n using Nat.strong_induction_on with
  | _ n ih =>
    intro c hc
    rw [natToChars_eq] at hc
    revert c hc
    by_cases h10 : n < 10
    · simp [h10, isDigitChar_digitChar h10]
    · simp only [h10, if_false, List.mem_append, List.mem_singleton]
      rintro c (hc | rfl)
      · exact ih (n / 10) (Nat.div_lt_self (by omega) (by omega)) c hc
      · exact isDigitChar_digitChar (Nat.mod_lt _ (by omega))

lemma digitsVal_append_singleton (l : List Char) (c : Char) :
    digitsVal (l ++ [c]) = 10 * digitsVal l + digitVal c := by
  simp [digitsVal, List.foldl_append]

lemma digitsVal_natToChars (n : Nat) : digitsVal (natToChars n) = n := by
  induction n using Nat.strong_induction_on with
  | _ n ih =>
    rw [natToChars_eq]
    by_cases h10 : n < 10
    · simp [h10, digitsVal, digitVal_digitChar h10]
    · simp only [h10, if_false, digitsVal_append_singleton]
      rw [ih (n / 10) (Nat.div_lt_self (by omega) (by omega)),
          digitVal_digitChar (Nat.mod_lt _ (by omega))]
      omega

lemma parseDigits_natToChars (n : Nat) : parseDigits (natToChars n) = some n := by
  have h1 : (natToChars n).isEmpty = false := by
    simpa [List.isEmpty_iff] using natToChars_ne_nil n
  have h2 : (natToChars n).all isDigitChar = true := List.all_eq_true.mpr (natToChars_digits n)
  simp [parseDigits, h1, h2, digitsVal_natToChars n]

lemma natToChars_len_lt100 {n : Nat} (h : n < 100) : (natToChars n).length ≤ 2 := by
  rw [natToChars_eq]
  by_cases h10 : n < 10
  · simp [h10]
  · have h1 : n / 10 < 10 := by omega
    simp [h10, natToChars_eq (n / 10), h1]

lemma natToChars_len_lt1000 {n : Nat} (h : n < 1000) : (natToChars n).length ≤ 3 := by
  rw [natToChars_eq]
  by_cases h10 : n < 10
  · simp [h10]
  · have h1 : n / 10 < 100 := by omega
    have := natToChars_len_lt100 h1
    simp [h10]
    omega

lemma digitsVal_replicate_zero (k : Nat) (l : List Char) :
    digitsVal (List.replicate k '0' ++ l) = digitsVal l := by
  have hz : ∀ k, List.foldl (fun a c => 10 * a + digitVal c) 0 (List.replicate k '0') = 0 := by
    intro k
    induction k with
    | zero => rfl
    | succ k ih => simpa [List.replicate_succ, digitVal] using ih
  simp [digitsVal, List.foldl_append, hz]

lemma padNum_digits (w n : Nat) : ∀ c ∈ padNum w n, isDigitChar c = true := by
  intro c hc
  rcases List.mem_append.1 hc with h | h
  · have : c = '0' := List.eq_of_mem_replicate h
    subst this; decide
  · exact natToChars_digits n c h

lemma padNum_length (w n : Nat) : (padNum w n).length = max w (natToChars n).length := by
  simp [padNum]
  omega

lemma digitsVal_padNum (w n : Nat) : digitsVal (padNum w n) = n := by
  rw [padNum, digitsVal_replicate_zero, digitsVal_natToChars]

lemma padNum_two_shape {n : Nat} (h : n < 100) :
    ∃ a b, padNum 2 n = [a, b] ∧ isDigitChar a = true ∧ isDigitChar b = true ∧
      10 * digitVal a + digitVal b = n := by
  have hlen : (padNum 2 n).length = 2 := by
    rw [padNum_length]
    have h1 : 1 ≤ (natToChars n).length := by
      cases he : natToChars n with
      | nil => exact absurd he (natToChars_ne_nil n)
      | cons x xs => simp
    have h2 := natToChars_len_lt100 h
    omega
  obtain ⟨a, b, hp⟩ := List.length_eq_two.1 hlen
  refine ⟨a, b, hp, padNum_digits 2 n a (by rw [hp]; simp),
    padNum_digits 2 n b (by rw [hp]; simp), ?_⟩
  have hv := digitsVal_padNum 2 n
  rw [hp] at hv
  simp [digitsVal] at hv
  omega

lemma padNum_three_shape {n : Nat} (h : n < 1000) :
    ∃ a b c, padNum 3 n = [a, b, c] ∧ isDigitChar a = true ∧ isDigitChar b = true ∧
      isDigitChar c = true ∧ 100 * digitVal a + 10 * digitVal b + digitVal c = n := by
  have hlen : (padNum 3 n).length = 3 := by
    rw [padNum_length]
    have h1 : 1 ≤ (natToChars n).length := by
      cases he : natToChars n with
      | nil => exact absurd he (natToChars_ne_nil n)
      | cons x xs => simp
    have h2 := natToChars_len_lt1000 h
    omega
  obtain ⟨a, b, c, hp⟩ := List.length_eq_three.1 hlen
  refine ⟨a, b, c, hp, padNum_digits 3 n a (by rw [hp]; simp),
    padNum_digits 3 n b (by rw [hp]; simp), padNum_digits 3 n c (by rw [hp]; simp), ?_⟩
  have hv := digitsVal_padNum 3 n
  rw [hp] at hv
  simp [digitsVal] at hv
  omega

/-! ## Strip lemmas -/

lemma dropWhile_eq_self_of_head {p : Char → Bool} :
    ∀ {l : List Char}, (∀ c, l.head? = some c → p c = false) → l.dropWhile p = l := by
  intro l h
  cases l with
  | nil => rfl
  | cons a t => exact List.dropWhile_cons_of_neg (by simp [h a rfl])

lemma pyStrip_eq_self {l : List Char} (h1 : ∀ c, l.head? = some c → isPySpace c = false)
    (h2 : ∀ c, l.getLast? = some c → isPySpace c = false) : pyStrip l = l := by
  unfold pyStrip pyLStrip
  rw [dropWhile_eq_self_of_head h1, dropWhile_eq_self_of_head (by
    intro c hc
    rw [List.head?_reverse] at hc
    exact h2 c hc), List.reverse_reverse]

lemma pyStrip_append_blank {a b : Char} (m : List Char) (ha : isPySpace a = false)
    (hb : isPySpace b = false) :
    pyStrip ((a :: m ++ [b]) ++ ['\n', '\n']) = a :: m ++ [b] := by
  unfold pyStrip pyLStrip
  rw [show (a :: m ++ [b]) ++ ['\n', '\n'] = a :: (m ++ [b] ++ ['\n', '\n']) by simp,
      List.dropWhile_cons_of_neg (by simp [ha])]
  have hrev : (a :: (m ++ [b] ++ ['\n', '\n'])).reverse
      = '\n' :: '\n' :: (b :: (m.reverse ++ [a])) := by simp
  rw [hrev, List.dropWhile_cons_of_pos (by decide), List.dropWhile_cons_of_pos (by decide),
      List.dropWhile_cons_of_neg (by simp [hb])]
  simp

/-! ## Scanner lemmas for the split functions -/

lemma pySplitSepGo_scan {p : Char → Bool} :
    ∀ (u : List Char), (∀ c ∈ u, p c = false) → ∀ acc v,
      pySplitSepGo p acc (u ++ v) = pySplitSepGo p (u.reverse ++ acc) v := by
  intro u
  induction u with
  | nil => intro _ acc v; simp
  | cons c u' ih =>
    intro h acc v
    have hc : p c = false := h c (by simp)
    have step : pySplitSepGo p acc ((c :: u') ++ v) = pySplitSepGo p (c :: acc) (u' ++ v) := by
      simp [pySplitSepGo, hc]
    rw [step, ih (fun x hx => h x (by simp [hx])) (c :: acc) v]
    simp

lemma pySplitSepGo_sep {p : Char → Bool} {c : Char} (hc : p c = true) (acc v) :
    pySplitSepGo p acc (c :: v) = acc.reverse :: pySplitSepGo p [] v := by
  simp [pySplitSepGo, hc]

lemma pySplitSepGo_nil {p : Char → Bool} (acc) : pySplitSepGo p acc [] = [acc.reverse] := rfl

lemma splitlinesGo_scan :
    ∀ (u : List Char), (∀ c ∈ u, isLineBreak c = false) → ∀ acc v,
      splitlinesGo false acc (u ++ v) = splitlinesGo false (u.reverse ++ acc) v := by
  intro u
  induction u with
  | nil => intro _ acc v; simp
  | cons c u' ih =>
    intro h acc v
    have hc : isLineBreak c = false := h c (by simp)
    have step : splitlinesGo false acc ((c :: u') ++ v)
        = splitlinesGo false (c :: acc) (u' ++ v) := by
      simp [splitlinesGo, hc]
    rw [step, ih (fun x hx => h x (by simp [hx])) (c :: acc) v]
    simp

lemma splitlinesGo_nl {acc : List Char} {v : List Char} (hv : v ≠ []) :
    splitlinesGo false acc ('\n' :: v) = acc.reverse :: splitlinesGo false [] v := by
  have hbreak : isLineBreak '\n' = true := by decide
  have hcr : (('\n' : Char) = '\r') = False := by simp
  simp [splitlinesGo, hbreak, List.isEmpty_iff, hv, hcr]

lemma splitlinesGo_nil (acc) : splitlinesGo false acc [] = [acc.reverse] := rfl

lemma splitBlankGo_scan :
    ∀ (u : List Char), (∀ c ∈ u, c ≠ '\n') → ∀ acc v,
      splitBlankGo acc [] (u ++ v) = splitBlankGo (u.reverse ++ acc) [] v := by
  intro u
  induction u with
  | nil => intro _ acc v; simp
  | cons c u' ih =>
    intro h acc v
    have hc : (c = '\n') = False := by simp [h c (by simp)]
    have step : splitBlankGo acc [] ((c :: u') ++ v) = splitBlankGo (c :: acc) [] (u' ++ v) := by
      simp [splitBlankGo, hc]
    rw [step, ih (fun x hx => h x (by simp [hx])) (c :: acc) v]
    simp

lemma splitBlankGo_nil (acc) : splitBlankGo acc [] [] = [acc.reverse] := by
  simp [splitBlankGo]

lemma splitBlankGo_nl_nonspace {c : Char} (hc : isPySpace c = false) (acc v) :
    splitBlankGo acc [] ('\n' :: c :: v) = splitBlankGo (c :: '\n' :: acc) [] v := by
  simp [splitBlankGo, hc, List.count_cons]

lemma splitBlankGo_nl_spacerun {w : List Char} (hw : ∀ x ∈ w, isPySpace x = true ∧ x ≠ '\n') :
    ∀ {c : Char}, isPySpace c = false → ∀ acc v,
      splitBlankGo acc [] ('\n' :: (w ++ c :: v)) =
        splitBlankGo (c :: (w.reverse ++ '\n' :: acc)) [] v := by
  have main : ∀ (w' : List Char), (∀ x ∈ w', isPySpace x = true ∧ x ≠ '\n') →
      ∀ {c : Char}, isPySpace c = false → ∀ acc run v, run.count '\n' = 1 →
      splitBlankGo acc run (w' ++ c :: v) = splitBlankGo (c :: (w'.reverse ++ run ++ acc)) [] v := by
    intro w'
    induction w' with
    | nil =>
      intro _ c hc acc run v hrun
      have hne : run.isEmpty = false := by
        cases run with
        | nil => simp at hrun
        | cons x xs => simp
      simp [splitBlankGo, hne, hc, hrun]
    | cons x w'' ih =>
      intro h c hc acc run v hrun
      obtain ⟨hx1, hx2⟩ := h x (by simp)
      have hne : run.isEmpty = false := by
        cases run with
        | nil => simp at hrun
        | cons y ys => simp
      have hcount : (x :: run).count '\n' = 1 := by
        rw [List.count_cons]
        simp [hx2, hrun]
      have step : splitBlankGo acc run ((x :: w'') ++ c :: v)
          = splitBlankGo acc (x :: run) (w'' ++ c :: v) := by
        simp [splitBlankGo, hne, hx1]
      rw [step, ih (fun y hy => h y (by simp [hy])) hc acc (x :: run) v hcount]
      simp
  intro c hc acc v
  have hrun : (['\n'] : List Char).count '\n' = 1 := by decide
  have step : splitBlankGo acc [] ('\n' :: (w ++ c :: v))
      = splitBlankGo acc ['\n'] (w ++ c :: v) := by
    simp [splitBlankGo]
  rw [step, main w hw hc acc ['\n'] v hrun]
  simp

lemma splitBlankGo_sep {c2 : Char} (hc2 : isPySpace c2 = false) (acc v) :
    splitBlankGo acc [] ('\n' :: '\n' :: c2 :: v) = acc.reverse :: splitBlankGo [] [] (c2 :: v) := by
  have hsp : isPySpace '\n' = true := by decide
  have hcount : (('\n' : Char) :: ['\n']).count '\n' = 2 := by decide
  have hc2' : (c2 = '\n') = False := eq_false (fun he => by subst he; simp [isPySpace] at hc2)
  have s1 : splitBlankGo acc [] ('\n' :: '\n' :: c2 :: v)
      = splitBlankGo acc ['\n'] ('\n' :: c2 :: v) := by
    simp [splitBlankGo]
  have s2 : splitBlankGo acc ['\n'] ('\n' :: c2 :: v)
      = splitBlankGo acc ['\n', '\n'] (c2 :: v) := by
    simp [splitBlankGo, hsp]
  have s3 : splitBlankGo acc ['\n', '\n'] (c2 :: v)
      = acc.reverse :: splitBlankGo [c2] [] v := by
    simp [splitBlankGo, hc2, hcount, List.takeWhile, hc2']
  have s4 : splitBlankGo [] [] (c2 :: v) = splitBlankGo [c2] [] v := by
    simp [splitBlankGo, hc2']
  rw [s1, s2, s3, s4]

/-! ## Timestamp rendering and parsing lemmas -/

lemma srt_total_seconds_div (n : Nat) : srt_total_seconds ((n : ℚ) / 1000) = n / 1000 := by
  unfold srt_total_seconds
  rw [show ((1000 : ℚ)) = ((1000 : ℕ) : ℚ) by norm_num, Rat.floor_natCast_div_natCast]
  omega

lemma floor_div_1000 (n : Nat) : ⌊((n : ℚ) / 1000)⌋ = ((n / 1000 : ℕ) : ℤ) := by
  rw [show ((1000 : ℚ)) = ((1000 : ℕ) : ℚ) by norm_num, Rat.floor_natCast_div_natCast]
  omega

lemma srt_millis_div (n : Nat) : srt_millis ((n : ℚ) / 1000) = n % 1000 := by
  unfold srt_millis
  rw [floor_div_1000 n]
  have hsub : (n : ℚ) / 1000 - (((n / 1000 : ℕ) : ℤ) : ℚ) = ((n % 1000 : ℕ) : ℚ) / 1000 := by
    rw [Int.cast_natCast]
    have h : (n : ℚ) = 1000 * ((n / 1000 : ℕ) : ℚ) + ((n % 1000 : ℕ) : ℚ) := by
      exact_mod_cast congrArg (fun k : ℕ => (k : ℚ)) (Nat.div_add_mod n 1000).symm
    rw [h]
    ring
  rw [hsub, div_mul_cancel₀ _ (by norm_num : (1000 : ℚ) ≠ 0), Int.floor_natCast]
  omega

lemma digitsVal_pair (a b : Char) : digitsVal [a, b] = 10 * digitVal a + digitVal b := by
  simp [digitsVal]

lemma digitsVal_triple (a b c : Char) :
    digitsVal [a, b, c] = 100 * digitVal a + 10 * digitVal b + digitVal c := by
  simp [digitsVal]
  ring

lemma int_of_string_digits {l : List Char} (hne : l ≠ []) (hd : ∀ c ∈ l, isDigitChar c = true) :
    int_of_string l = some ((digitsVal l : ℕ) : ℤ) := by
  have hstrip : pyStrip l = l := pyStrip_eq_self
    (fun c hc => digit_not_pyspace (hd c (List.mem_of_mem_head? hc)))
    (fun c hc => digit_not_pyspace (hd c (List.mem_of_getLast?_eq_some hc)))
  obtain ⟨c0, l', rfl⟩ := List.exists_cons_of_ne_nil hne
  have hc0 : isDigitChar c0 = true := hd c0 (by simp)
  have hminus : c0 ≠ '-' := digit_ne hc0 (by decide)
  have hplus : c0 ≠ '+' := digit_ne hc0 (by decide)
  have hpd : parseDigits (c0 :: l') = some (digitsVal (c0 :: l')) := by
    have h2 : (c0 :: l').all isDigitChar = true := List.all_eq_true.mpr hd
    simp [parseDigits, h2]
  simp [int_of_string, hstrip, hminus, hplus, hpd]

lemma matchTS_digits {h1 h2 m1 m2 s1 s2 x1 x2 x3 : Char}
    (d1 : isDigitChar h1 = true) (d2 : isDigitChar h2 = true)
    (d3 : isDigitChar m1 = true) (d4 : isDigitChar m2 = true)
    (d5 : isDigitChar s1 = true) (d6 : isDigitChar s2 = true)
    (d7 : isDigitChar x1 = true) (d8 : isDigitChar x2 = true)
    (d9 : isDigitChar x3 = true) (rest : List Char) :
    matchTimestampChars (h1 :: h2 :: ':' :: m1 :: m2 :: ':' :: s1 :: s2 :: ',' :: x1 :: x2 :: x3 :: rest)
      = some ([h1, h2, ':', m1, m2, ':', s1, s2, ',', x1, x2, x3], rest) := by
  simp [matchTimestampChars, d1, d2, d3, d4, d5, d6, d7, d8, d9]

lemma srt_time_digits {h1 h2 m1 m2 s1 s2 x1 x2 x3 : Char}
    (d1 : isDigitChar h1 = true) (d2 : isDigitChar h2 = true)
    (d3 : isDigitChar m1 = true) (d4 : isDigitChar m2 = true)
    (d5 : isDigitChar s1 = true) (d6 : isDigitChar s2 = true)
    (d7 : isDigitChar x1 = true) (d8 : isDigitChar x2 = true)
    (d9 : isDigitChar x3 = true) :
    srt_time_to_seconds [h1, h2, ':', m1, m2, ':', s1, s2, ',', x1, x2, x3]
      = some (((10 * digitVal h1 + digitVal h2 : ℕ) : ℚ) * 3600
          + ((10 * digitVal m1 + digitVal m2 : ℕ) : ℚ) * 60
          + ((10 * digitVal s1 + digitVal s2 : ℕ) : ℚ)
          + ((100 * digitVal x1 + 10 * digitVal x2 + digitVal x3 : ℕ) : ℚ) / 1000) := by
  have hnc : ∀ c : Char, isDigitChar c = true → isColonComma c = false := by
    intro c hc
    have h1 := digit_ne hc (show (':' : Char).toNat < 48 ∨ 57 < (':' : Char).toNat by decide)
    have h2 := digit_ne hc (show (',' : Char).toNat < 48 ∨ 57 < (',' : Char).toNat by decide)
    simp [isColonComma, h1, h2]
  have hcolon : isColonComma ':' = true := by decide
  have hcomma : isColonComma ',' = true := by decide
  have hsplit : pySplitSep isColonComma [h1, h2, ':', m1, m2, ':', s1, s2, ',', x1, x2, x3]
      = [[h1, h2], [m1, m2], [s1, s2], [x1, x2, x3]] := by
    simp [pySplitSep, pySplitSepGo, hnc _ d1, hnc _ d2, hnc _ d3, hnc _ d4, hnc _ d5,
          hnc _ d6, hnc _ d7, hnc _ d8, hnc _ d9, hcolon, hcomma]
  have e1 : int_of_string [h1, h2] = some (((10 * digitVal h1 + digitVal h2 : ℕ) : ℤ)) := by
    rw [int_of_string_digits (by simp) (by intro c hc; rcases List.mem_pair.1 hc with rfl | rfl
                                           exacts [d1, d2]), digitsVal_pair]
  have e2 : int_of_string [m1, m2] = some (((10 * digitVal m1 + digitVal m2 : ℕ) : ℤ)) := by
    rw [int_of_string_digits (by simp) (by intro c hc; rcases List.mem_pair.1 hc with rfl | rfl
                                           exacts [d3, d4]), digitsVal_pair]
  have e3 : int_of_string [s1, s2] = some (((10 * digitVal s1 + digitVal s2 : ℕ) : ℤ)) := by
    rw [int_of_string_digits (by simp) (by intro c hc; rcases List.mem_pair.1 hc with rfl | rfl
                                           exacts [d5, d6]), digitsVal_pair]
  have e4 : int_of_string [x1, x2, x3]
      = some (((100 * digitVal x1 + 10 * digitVal x2 + digitVal x3 : ℕ) : ℤ)) := by
    rw [int_of_string_digits (by simp) (by
          intro c hc
          rcases hc with _ | ⟨_, hc⟩
          · exact d7
          · rcases List.mem_pair.1 hc with rfl | rfl
            exacts [d8, d9]), digitsVal_triple]
  unfold srt_time_to_seconds
  rw [hsplit]
  simp only [e1, e2, e3, e4]
  push_cast
  ring_nf

lemma srt_timestamp_div (n : Nat) :
    srt_timestamp ((n : ℚ) / 1000) = srt_hms (n / 1000) ++ ',' :: padNum 3 (n % 1000) := by
  unfold srt_timestamp
  rw [srt_total_seconds_div, srt_millis_div]

lemma srt_timestamp_full {n : Nat} (hn : n < 86400000) :
    ∃ h1 h2 m1 m2 s1 s2 x1 x2 x3 : Char,
      srt_timestamp ((n : ℚ) / 1000) = [h1, h2, ':', m1, m2, ':', s1, s2, ',', x1, x2, x3] ∧
      isDigitChar h1 = true ∧ isDigitChar h2 = true ∧ isDigitChar m1 = true ∧
      isDigitChar m2 = true ∧ isDigitChar s1 = true ∧ isDigitChar s2 = true ∧
      isDigitChar x1 = true ∧ isDigitChar x2 = true ∧ isDigitChar x3 = true ∧
      10 * digitVal h1 + digitVal h2 = n / 1000 / 3600 ∧
      10 * digitVal m1 + digitVal m2 = n / 1000 % 3600 / 60 ∧
      10 * digitVal s1 + digitVal s2 = n / 1000 % 60 ∧
      100 * digitVal x1 + 10 * digitVal x2 + digitVal x3 = n % 1000 := by
  obtain ⟨h1, h2, eh, dh1, dh2, vh⟩ := padNum_two_shape (show n / 1000 / 3600 % 24 < 100 by omega)
  obtain ⟨m1, m2, em, dm1, dm2, vm⟩ := padNum_two_shape (show n / 1000 % 3600 / 60 < 100 by omega)
  obtain ⟨s1, s2, es, ds1, ds2, vs⟩ := padNum_two_shape (show n / 1000 % 60 < 100 by omega)
  obtain ⟨x1, x2, x3, ex, dx1, dx2, dx3, vx⟩ := padNum_three_shape (show n % 1000 < 1000 by omega)
  refine ⟨h1, h2, m1, m2, s1, s2, x1, x2, x3, ?_, dh1, dh2, dm1, dm2, ds1, ds2, dx1, dx2, dx3,
    ?_, ?_, ?_, ?_⟩
  · rw [srt_timestamp_div, srt_hms, eh, em, es, ex]
    rfl
  · rw [vh]
    omega
  · exact vm
  · exact vs
  · exact vx

/-! ## Round-trip building blocks -/

lemma msAligned_time_roundtrip {q : ℚ} (hq : msAligned q) :
    srt_time_to_seconds (srt_timestamp q) = some q := by
  obtain ⟨n, hn, rfl⟩ := hq
  obtain ⟨h1, h2, m1, m2, s1, s2, x1, x2, x3, he, d1, d2, d3, d4, d5, d6, d7, d8, d9,
    vh, vm, vs, vx⟩ := srt_timestamp_full hn
  rw [he, srt_time_digits d1 d2 d3 d4 d5 d6 d7 d8 d9, vh, vm, vs, vx]
  congr 1
  have key : (n / 1000 / 3600) * 3600 * 1000 + (n / 1000 % 3600 / 60) * 60 * 1000
      + (n / 1000 % 60) * 1000 + n % 1000 = n := by omega
  have keyq : ((n / 1000 / 3600 : ℕ) : ℚ) * 3600 * 1000
      + ((n / 1000 % 3600 / 60 : ℕ) : ℚ) * 60 * 1000
      + ((n / 1000 % 60 : ℕ) : ℚ) * 1000 + ((n % 1000 : ℕ) : ℚ) = (n : ℚ) := by
    exact_mod_cast congrArg (fun k : ℕ => (k : ℚ)) key
  rw [eq_div_iff (by norm_num : (1000 : ℚ) ≠ 0), ← keyq]
  ring

lemma goodTextB_spec {t : List Char} (ht : goodTextB t = true) :
    (∀ c ∈ t, isLineBreak c = false) ∧ ∃ u cl, t = u ++ [cl] ∧ isPySpace cl = false := by
  rw [goodTextB, Bool.and_eq_true] at ht
  obtain ⟨h1, h2⟩ := ht
  have hbr : ∀ c ∈ t, isLineBreak c = false := by
    intro c hc
    have := List.all_eq_true.1 h1 c hc
    simpa using this
  rcases List.eq_nil_or_concat t with rfl | ⟨u, cl, hucl⟩
  · exact absurd h2 (by decide)
  · rw [List.concat_eq_append] at hucl
    subst hucl
    refine ⟨hbr, u, cl, rfl, ?_⟩
    rw [List.getLastD_concat] at h2
    simpa using h2

lemma timing_line_shape {s e : ℚ} (hs : msAligned s) (he : msAligned e) :
    (∀ c ∈ srt_timestamp s ++ " --> ".data ++ srt_timestamp e, isLineBreak c = false) ∧
    (∃ b1, srt_timestamp s ++ " --> ".data ++ srt_timestamp e = b1 ∧ b1 ≠ []) ∧
    matchTimesLine (pyStrip (srt_timestamp s ++ " --> ".data ++ srt_timestamp e))
      = some (srt_timestamp s, srt_timestamp e) := by
  obtain ⟨n, hn, rfl⟩ := hs
  obtain ⟨m, hm, rfl⟩ := he
  obtain ⟨a1, a2, a3, a4, a5, a6, a7, a8, a9, ea, p1, p2, p3, p4, p5, p6, p7, p8, p9,
    _, _, _, _⟩ := srt_timestamp_full hn
  obtain ⟨b1, b2, b3, b4, b5, b6, b7, b8, b9, eb, q1, q2, q3, q4, q5, q6, q7, q8, q9,
    _, _, _, _⟩ := srt_timestamp_full hm
  have harrow : (" --> ".data : List Char) = ' ' :: '-' :: '-' :: '>' :: ' ' :: [] := rfl
  have hnb : ∀ c ∈ srt_timestamp ((n : ℚ) / 1000) ++ " --> ".data
      ++ srt_timestamp ((m : ℚ) / 1000), isLineBreak c = false := by
    rw [ea, eb, harrow]
    intro c hc
    simp only [List.mem_append, List.mem_cons, List.not_mem_nil, or_false] at hc
    rcases hc with (hc | hc) | hc
    · rcases hc with rfl | rfl | rfl | rfl | rfl | rfl | rfl | rfl | rfl | rfl | rfl | rfl
      exacts [digit_not_linebreak p1, digit_not_linebreak p2, by decide,
        digit_not_linebreak p3, digit_not_linebreak p4, by decide,
        digit_not_linebreak p5, digit_not_linebreak p6, by decide,
        digit_not_linebreak p7, digit_not_linebreak p8, digit_not_linebreak p9]
    · rcases hc with rfl | rfl | rfl | rfl | rfl
      all_goals decide
    · rcases hc with rfl | rfl | rfl | rfl | rfl | rfl | rfl | rfl | rfl | rfl | rfl | rfl
      exacts [digit_not_linebreak q1, digit_not_linebreak q2, by decide,
        digit_not_linebreak q3, digit_not_linebreak q4, by decide,
        digit_not_linebreak q5, digit_not_linebreak q6, by decide,
        digit_not_linebreak q7, digit_not_linebreak q8, digit_not_linebreak q9]
  refine ⟨hnb, ⟨_, rfl, by rw [ea]; simp⟩, ?_⟩
  have hstrip : pyStrip (srt_timestamp ((n : ℚ) / 1000) ++ " --> ".data
      ++ srt_timestamp ((m : ℚ) / 1000)) = srt_timestamp ((n : ℚ) / 1000) ++ " --> ".data
      ++ srt_timestamp ((m : ℚ) / 1000) := by
    apply pyStrip_eq_self
    · intro c hc
      rw [ea] at hc
      simp only [List.cons_append, List.head?_cons, Option.some.injEq] at hc
      subst hc
      exact digit_not_pyspace p1
    · intro c hc
      rw [eb, show (srt_timestamp ((n : ℚ) / 1000) ++ " --> ".data
          ++ [b1, b2, ':', b3, b4, ':', b5, b6, ',', b7, b8, b9])
          = (srt_timestamp ((n : ℚ) / 1000) ++ " --> ".data
          ++ [b1, b2, ':', b3, b4, ':', b5, b6, ',', b7, b8]) ++ [b9] by simp,
        List.getLast?_concat] at hc
      cases hc
      exact digit_not_pyspace q9
  rw [hstrip]
  unfold matchTimesLine
  rw [ea, eb, harrow]
  rw [show ([a1, a2, ':', a3, a4, ':', a5, a6, ',', a7, a8, a9] : List Char)
      ++ (' ' :: '-' :: '-' :: '>' :: ' ' :: [])
      ++ [b1, b2, ':', b3, b4, ':', b5, b6, ',', b7, b8, b9]
      = a1 :: a2 :: ':' :: a3 :: a4 :: ':' :: a5 :: a6 :: ',' :: a7 :: a8 :: a9 ::
        (' ' :: '-' :: '-' :: '>' :: ' ' :: [b1, b2, ':', b3, b4, ':', b5, b6, ',', b7, b8, b9])
      by simp,
    matchTS_digits p1 p2 p3 p4 p5 p6 p7 p8 p9]
  simp only [List.dropWhile_cons_of_pos (show isPySpace ' ' = true by decide),
    List.dropWhile_cons_of_neg (show ¬ isPySpace '-' = true by decide),
    List.dropWhile_cons_of_neg (show ¬ isPySpace (b1 : Char) = true by
      simp [digit_not_pyspace q1])]
  rw [show ([b1, b2, ':', b3, b4, ':', b5, b6, ',', b7, b8, b9] : List Char)
      = b1 :: b2 :: ':' :: b3 :: b4 :: ':' :: b5 :: b6 :: ',' :: b7 :: b8 :: b9 :: [] by simp,
    matchTS_digits q1 q2 q3 q4 q5 q6 q7 q8 q9]

lemma splitlines_three {a b t : List Char} (ha : ∀ c ∈ a, isLineBreak c = false)
    (hb : ∀ c ∈ b, isLineBreak c = false) (htb : ∀ c ∈ t, isLineBreak c = false)
    (htne : t ≠ []) :
    pySplitlines (a ++ '\n' :: b ++ '\n' :: t) = [a, b, t] := by
  have hne : (a ++ '\n' :: b ++ '\n' :: t).isEmpty = false := by
    simp [List.isEmpty_iff]
  unfold pySplitlines
  rw [hne]
  simp only [Bool.false_eq_true, if_false]
  rw [show a ++ '\n' :: b ++ '\n' :: t = a ++ ('\n' :: (b ++ ('\n' :: t))) by simp,
    splitlinesGo_scan a ha [] _,
    splitlinesGo_nl (by simp), splitlinesGo_scan b hb [] _,
    splitlinesGo_nl htne,
    show t = t ++ [] by simp, splitlinesGo_scan t (by simpa using htb) [] [],
    splitlinesGo_nil]
  simp

lemma split_space_run : ∀ (t : List Char), (∃ c ∈ t, isPySpace c = false) →
    ∃ w c t2, t = w ++ c :: t2 ∧ (∀ x ∈ w, isPySpace x = true) ∧ isPySpace c = false := by
  intro t
  induction t with
  | nil => rintro ⟨c, hc, -⟩; simp at hc
  | cons x t' ih =>
    rintro ⟨c, hc, hcs⟩
    by_cases hx : isPySpace x = false
    · exact ⟨[], x, t', by simp, by simp, hx⟩
    · have hx' : isPySpace x = true := by
        cases hxx : isPySpace x
        · exact absurd hxx hx
        · rfl
      have hmem : c ∈ t' := by
        rcases List.mem_cons.1 hc with rfl | h
        · exact absurd hx' (by simp [hcs])
        · exact h
      obtain ⟨w, c2, t2, het, hw, hc2⟩ := ih ⟨c, hmem, hcs⟩
      exact ⟨x :: w, c2, t2, by simp [het], by
        intro y hy
        rcases List.mem_cons.1 hy with rfl | h
        · exact hx'
        · exact hw y h, hc2⟩

lemma parse_block_core {i : Nat} {s e : ℚ} {t : List Char}
    (hs : msAligned s) (he : msAligned e) (ht : goodTextB t = true) :
    parse_block (srt_core i s e t) = some (some (segOf (s, e, t))) := by
  obtain ⟨htbr, u, cl, htcl, hclns⟩ := goodTextB_spec ht
  obtain ⟨hbnb, -, hmatch⟩ := timing_line_shape hs he
  obtain ⟨a0, a', ha0⟩ := List.exists_cons_of_ne_nil (natToChars_ne_nil i)
  have hadig := natToChars_digits i
  have htne : t ≠ [] := by rw [htcl]; simp
  have hstrip : pyStrip (srt_core i s e t) = srt_core i s e t := by
    apply pyStrip_eq_self
    · intro c hc
      unfold srt_core at hc
      rw [ha0] at hc
      simp only [List.cons_append, List.head?_cons, Option.some.injEq] at hc
      subst hc
      exact digit_not_pyspace (hadig a0 (by rw [ha0]; simp))
    · intro c hc
      unfold srt_core at hc
      rw [htcl, show natToChars i ++ '\n' :: (srt_timestamp s ++ " --> ".data ++ srt_timestamp e)
          ++ '\n' :: (u ++ [cl])
          = (natToChars i ++ '\n' :: (srt_timestamp s ++ " --> ".data ++ srt_timestamp e)
            ++ '\n' :: u) ++ [cl] by simp,
        List.getLast?_concat] at hc
      cases hc
      exact hclns
  have hlines : pySplitlines (srt_core i s e t)
      = [natToChars i, srt_timestamp s ++ " --> ".data ++ srt_timestamp e, t] := by
    unfold srt_core
    exact splitlines_three (fun c hc => digit_not_linebreak (hadig c hc)) hbnb htbr htne
  unfold parse_block
  rw [hstrip, hlines]
  simp only [hmatch, msAligned_time_roundtrip hs, msAligned_time_roundtrip he]
  rfl

lemma coreOK_srt_core {i : Nat} {s e : ℚ} {t : List Char}
    (hs : msAligned s) (he : msAligned e) (ht : goodTextB t = true) :
    CoreOK (srt_core i s e t) := by
  obtain ⟨htbr, u, cl, htcl, hclns⟩ := goodTextB_spec ht
  obtain ⟨hbnb, -, -⟩ := timing_line_shape hs he
  obtain ⟨n, hn, hsn⟩ := hs
  obtain ⟨a1, a2, a3, a4, a5, a6, a7, a8, a9odd, ea, p1, -⟩ := srt_timestamp_full hn
  refine ⟨natToChars i, srt_timestamp s ++ " --> ".data ++ srt_timestamp e, t, rfl,
    natToChars_ne_nil i, natToChars_digits i, hbnb, ?_, htbr, u, cl, htcl, hclns⟩
  subst hsn
  rw [ea]
  exact ⟨a1, a2 :: ':' :: a3 :: a4 :: ':' :: a5 :: a6 :: ',' :: a7 :: a8 :: a9odd ::
    (" --> ".data ++ srt_timestamp e), by simp, digit_not_pyspace p1⟩

lemma not_nl_of_not_break {c : Char} (h : isLineBreak c = false) : c ≠ '\n' := by
  intro he
  subst he
  exact absurd h (by decide)

lemma sb_core {core : List Char} (h : CoreOK core) (acc v : List Char) :
    splitBlankGo acc [] (core ++ v) = splitBlankGo (core.reverse ++ acc) [] v := by
  obtain ⟨a, b, t, rfl, hane, hadig, hbnb, ⟨b0, b1, rfl, hb0⟩, htnb, u, cl, htcl, hcl⟩ := h
  have hanl : ∀ c ∈ a, c ≠ '\n' := fun c hc => digit_ne (hadig c hc) (by decide)
  have hbnl : ∀ c ∈ b1, c ≠ '\n' := fun c hc => not_nl_of_not_break (hbnb c (by simp [hc]))
  obtain ⟨w, cn, t2, htw, hwsp, hcn⟩ := split_space_run t ⟨cl, by rw [htcl]; simp, hcl⟩
  have hwnl : ∀ x ∈ w, isPySpace x = true ∧ x ≠ '\n' := fun x hx =>
    ⟨hwsp x hx, not_nl_of_not_break (htnb x (by rw [htw]; simp [hx]))⟩
  have ht2nl : ∀ x ∈ t2, x ≠ '\n' := fun x hx =>
    not_nl_of_not_break (htnb x (by rw [htw]; simp [hx]))
  rw [show (a ++ '\n' :: (b0 :: b1) ++ '\n' :: t) ++ v
      = a ++ ('\n' :: b0 :: (b1 ++ ('\n' :: (t ++ v)))) by simp,
    splitBlankGo_scan a hanl,
    splitBlankGo_nl_nonspace hb0,
    splitBlankGo_scan b1 hbnl,
    htw,
    show (w ++ cn :: t2) ++ v = w ++ cn :: (t2 ++ v) by simp,
    splitBlankGo_nl_spacerun hwnl hcn,
    splitBlankGo_scan t2 ht2nl]
  congr 1
  simp

lemma coreOK_head {c : List Char} (h : CoreOK c) :
    ∃ d r, c = d :: r ∧ isPySpace d = false := by
  obtain ⟨a, b, t, rfl, hane, hadig, -⟩ := h
  obtain ⟨a0, a', rfl⟩ := List.exists_cons_of_ne_nil hane
  exact ⟨a0, a' ++ '\n' :: b ++ '\n' :: t, by simp,
    digit_not_pyspace (hadig a0 (by simp))⟩

lemma coreOK_getLast {c : List Char} (h : CoreOK c) :
    ∃ cl, c.getLast? = some cl ∧ isPySpace cl = false := by
  obtain ⟨a, b, t, rfl, -, -, -, -, -, u, cl, htcl, hcl⟩ := h
  refine ⟨cl, ?_, hcl⟩
  rw [htcl, show a ++ '\n' :: b ++ '\n' :: (u ++ [cl])
      = (a ++ '\n' :: b ++ '\n' :: u) ++ [cl] by simp, List.getLast?_concat]

lemma join_head (cs : List (List Char)) {c : List Char} (h : CoreOK c) :
    ∃ d r, pyJoin ['\n', '\n'] (c :: cs) = d :: r ∧ isPySpace d = false := by
  obtain ⟨d, r, rfl, hd⟩ := coreOK_head h
  cases cs with
  | nil => exact ⟨d, r, rfl, hd⟩
  | cons c2 cs' =>
    exact ⟨d, r ++ ['\n', '\n'] ++ pyJoin ['\n', '\n'] (c2 :: cs'), by
      rw [show pyJoin ['\n', '\n'] ((d :: r) :: c2 :: cs')
          = (d :: r) ++ ['\n', '\n'] ++ pyJoin ['\n', '\n'] (c2 :: cs') from rfl]
      simp, hd⟩

lemma join_getLast : ∀ (cs : List (List Char)) (c : List Char), CoreOK c →
    (∀ x ∈ cs, CoreOK x) →
    ∃ cl, (pyJoin ['\n', '\n'] (c :: cs)).getLast? = some cl ∧ isPySpace cl = false := by
  intro cs
  induction cs with
  | nil => intro c h _; exact coreOK_getLast h
  | cons c2 cs' ih =>
    intro c h hall
    obtain ⟨cl, hcl, hclns⟩ := ih c2 (hall c2 (by simp)) (fun x hx => hall x (by simp [hx]))
    refine ⟨cl, ?_, hclns⟩
    rw [show pyJoin ['\n', '\n'] (c :: c2 :: cs')
        = c ++ ['\n', '\n'] ++ pyJoin ['\n', '\n'] (c2 :: cs') from rfl]
    rw [List.getLast?_append, List.getLast?_append, hcl]
    rfl

lemma sb_join : ∀ (cs : List (List Char)) (c : List Char) (acc : List Char), CoreOK c →
    (∀ x ∈ cs, CoreOK x) →
    splitBlankGo acc [] (pyJoin ['\n', '\n'] (c :: cs)) = (acc.reverse ++ c) :: cs := by
  intro cs
  induction cs with
  | nil =>
    intro c acc h _
    have h1 := sb_core h acc []
    rw [List.append_nil] at h1
    show splitBlankGo acc [] c = _
    rw [h1, splitBlankGo_nil]
    simp
  | cons c2 cs' ih =>
    intro c acc h hall
    obtain ⟨d, r, hJ, hd⟩ := join_head cs' (hall c2 (by simp))
    rw [show pyJoin ['\n', '\n'] (c :: c2 :: cs')
        = c ++ ['\n', '\n'] ++ pyJoin ['\n', '\n'] (c2 :: cs') from rfl,
      show c ++ ['\n', '\n'] ++ pyJoin ['\n', '\n'] (c2 :: cs')
        = c ++ ('\n' :: '\n' :: pyJoin ['\n', '\n'] (c2 :: cs')) by simp,
      sb_core h acc _, hJ, splitBlankGo_sep hd, ← hJ,
      ih c2 [] (hall c2 (by simp)) (fun x hx => hall x (by simp [hx]))]
    simp

lemma format_srt_from_join : ∀ (entries : List (ℚ × ℚ × List Char)) (i : Nat),
    entries ≠ [] →
    format_srt_from i entries = pyJoin ['\n', '\n'] (srt_cores i entries) ++ ['\n', '\n'] := by
  intro entries
  induction entries with
  | nil => intro i h; exact absurd rfl h
  | cons p rest ih =>
    intro i _
    obtain ⟨s, e, t⟩ := p
    cases rest with
    | nil => simp [format_srt_from, srt_cores, pyJoin]
    | cons q rest' =>
      rw [show format_srt_from i ((s, e, t) :: q :: rest')
          = srt_core i s e t ++ '\n' :: '\n' :: format_srt_from (i + 1) (q :: rest') from rfl,
        ih (i + 1) (by simp),
        show srt_cores i ((s, e, t) :: q :: rest')
          = srt_core i s e t :: srt_cores (i + 1) (q :: rest') from rfl]
      have hq : srt_cores (i + 1) (q :: rest') = srt_core (i + 1) q.1 q.2.1 q.2.2
          :: srt_cores (i + 2) rest' := by
        obtain ⟨qs, qe, qt⟩ := q
        rfl
      rw [show pyJoin ['\n', '\n'] (srt_core i s e t :: srt_cores (i + 1) (q :: rest'))
          = srt_core i s e t ++ ['\n', '\n'] ++ pyJoin ['\n', '\n'] (srt_cores (i + 1) (q :: rest'))
          by rw [hq]; rfl]
      simp

lemma srt_cores_wf {entries : List (ℚ × ℚ × List Char)} (h : ∀ p ∈ entries, entryWF p) :
    ∀ i, ∀ core ∈ srt_cores i entries, CoreOK core := by
  induction entries with
  | nil => intro i core hc; simp [srt_cores] at hc
  | cons p rest ih =>
    intro i core hc
    obtain ⟨s, e, t⟩ := p
    rw [show srt_cores i ((s, e, t) :: rest) = srt_core i s e t :: srt_cores (i + 1) rest
        from rfl] at hc
    rcases List.mem_cons.1 hc with rfl | hc
    · obtain ⟨h1, h2, h3⟩ := h (s, e, t) (by simp)
      exact coreOK_srt_core h1 h2 h3
    · exact ih (fun q hq => h q (by simp [hq])) (i + 1) core hc

lemma mapM_parse_cores {entries : List (ℚ × ℚ × List Char)} (h : ∀ p ∈ entries, entryWF p) :
    ∀ i, (srt_cores i entries).mapM parse_block = some (entries.map (fun p => some (segOf p))) := by
  induction entries with
  | nil => intro i; rfl
  | cons p rest ih =>
    intro i
    obtain ⟨s, e, t⟩ := p
    obtain ⟨h1, h2, h3⟩ := h (s, e, t) (by simp)
    rw [show srt_cores i ((s, e, t) :: rest) = srt_core i s e t :: srt_cores (i + 1) rest
        from rfl, List.mapM_cons, parse_block_core h1 h2 h3,
      ih (fun q hq => h q (by simp [hq])) (i + 1)]
    rfl

lemma pyStrip_append_blank2 {x : List Char} {d : Char} {r : List Char} (hx : x = d :: r)
    (hd : isPySpace d = false) {cl : Char} (hlast : x.getLast? = some cl)
    (hcl : isPySpace cl = false) : pyStrip (x ++ ['\n', '\n']) = x := by
  unfold pyStrip pyLStrip
  rw [hx, show (d :: r) ++ ['\n', '\n'] = d :: (r ++ ['\n', '\n']) by simp,
    List.dropWhile_cons_of_neg (by simp [hd]), ← hx]
  have hrev : (x ++ ['\n', '\n']).reverse = '\n' :: '\n' :: x.reverse := by simp
  rw [show (d :: (r ++ ['\n', '\n'])) = x ++ ['\n', '\n'] by rw [hx]; simp, hrev,
    List.dropWhile_cons_of_pos (by decide), List.dropWhile_cons_of_pos (by decide)]
  have hxrev : ∀ c, x.reverse.head? = some c → isPySpace c = false := by
    intro c hc
    rw [List.head?_reverse, hlast] at hc
    cases hc
    exact hcl
  rw [dropWhile_eq_self_of_head hxrev, List.reverse_reverse]

/-- The master round-trip lemma: parsing the serialized track recovers
every entry, with quote-escaping applied to the text by the decoder. -/
lemma parse_format_roundtrip {entries : List (ℚ × ℚ × List Char)}
    (h : ∀ p ∈ entries, entryWF p) :
    parse_srt (format_srt entries) = some (entries.map segOf) := by
  cases entries with
  | nil => rfl
  | cons p rest =>
    have hne : (p :: rest : List (ℚ × ℚ × List Char)) ≠ [] := by simp
    unfold parse_srt format_srt
    rw [format_srt_from_join (p :: rest) 1 hne]
    have hcoreok := srt_cores_wf h 1
    have hcores1 : srt_cores 1 (p :: rest)
        = srt_core 1 p.1 p.2.1 p.2.2 :: srt_cores 2 rest := by
      obtain ⟨s, e, t⟩ := p
      rfl
    have hc1 : CoreOK (srt_core 1 p.1 p.2.1 p.2.2) := by
      apply hcoreok
      rw [hcores1]
      simp
    obtain ⟨d, r, hJ, hd⟩ := join_head (srt_cores 2 rest) hc1
    obtain ⟨cl, hlast, hcl⟩ := join_getLast (srt_cores 2 rest) _ hc1
      (fun x hx => hcoreok x (by rw [hcores1]; simp [hx]))
    rw [hcores1, pyStrip_append_blank2 hJ hd hlast hcl]
    unfold splitBlank
    rw [sb_join (srt_cores 2 rest) _ [] hc1
      (fun x hx => hcoreok x (by rw [hcores1]; simp [hx]))]
    rw [show ((([] : List Char).reverse ++ srt_core 1 p.1 p.2.1 p.2.2)
        :: srt_cores 2 rest) = srt_cores 1 (p :: rest) by rw [hcores1]; simp,
      mapM_parse_cores h 1]
    simp
    exact congrFun (List.filterMap_eq_map segOf) rest

/-! ## Chunk loop lemmas -/

lemma pyReplaceQuote_eq_self : ∀ {t : List Char}, dquote ∉ t → pyReplaceQuote t = t := by
  intro t
  induction t with
  | nil => intro _; rfl
  | cons c r ih =>
    intro h
    have hc : (c = dquote) = False := eq_false (fun he => h (by simp [he]))
    simp only [pyReplaceQuote, hc, if_false]
    rw [ih (fun hr => h (by simp [hr]))]

lemma process_loop_fst (em : List (List Char × List Char)) (ds : Nat → ℚ) :
    ∀ (lines : List (List Char)) (i0 : Nat) (t0 : ℚ),
      (process_script_loop em ds i0 t0 lines).1 = lines.map (preprocess_for_audio em) := by
  intro lines
  induction lines with
  | nil => intro i0 t0; rfl
  | cons line rest ih =>
    intro i0 t0
    simp only [process_script_loop, List.map_cons]
    rw [ih (i0 + 1) (t0 + ds i0)]

lemma process_loop_texts (em : List (List Char × List Char)) (ds : Nat → ℚ) :
    ∀ (lines : List (List Char)) (i0 : Nat) (t0 : ℚ),
      ((process_script_loop em ds i0 t0 lines).2).map (fun p => p.2.2) = lines := by
  intro lines
  induction lines with
  | nil => intro i0 t0; rfl
  | cons line rest ih =>
    intro i0 t0
    simp only [process_script_loop, List.map_cons]
    rw [ih (i0 + 1) (t0 + ds i0)]

lemma durSum_succ_front (ds : Nat → ℚ) : ∀ (k : Nat) (i0 : Nat),
    durSum ds i0 (k + 1) = ds i0 + durSum ds (i0 + 1) k := by
  intro k
  induction k with
  | zero => intro i0; simp [durSum]
  | succ k ih =>
    intro i0
    rw [show durSum ds i0 (k + 1 + 1) = durSum ds i0 (k + 1) + ds (i0 + (k + 1)) from rfl,
      ih i0, show durSum ds (i0 + 1) (k + 1) = durSum ds (i0 + 1) k + ds (i0 + 1 + k) from rfl,
      show i0 + (k + 1) = i0 + 1 + k by omega]
    ring

lemma process_loop_get (em : List (List Char × List Char)) (ds : Nat → ℚ) :
    ∀ (lines : List (List Char)) (k : Nat) (i0 : Nat) (t0 : ℚ) (txt : List Char),
      lines[k]? = some txt →
      ((process_script_loop em ds i0 t0 lines).2)[k]?
        = some (t0 + durSum ds i0 k, t0 + durSum ds i0 (k + 1), txt) := by
  intro lines
  induction lines with
  | nil => intro k i0 t0 txt h; simp at h
  | cons line rest ih =>
    intro k i0 t0 txt h
    cases k with
    | zero =>
      rw [List.getElem?_cons_zero] at h
      cases h
      simp [process_script_loop, durSum, durSum_succ_front]
    | succ k' =>
      rw [List.getElem?_cons_succ] at h
      simp only [process_script_loop, List.getElem?_cons_succ]
      rw [ih k' (i0 + 1) (t0 + ds i0) txt h]
      have h1 : t0 + ds i0 + durSum ds (i0 + 1) k' = t0 + durSum ds i0 (k' + 1) := by
        rw [durSum_succ_front]
        ring
      have h2 : t0 + ds i0 + durSum ds (i0 + 1) (k' + 1) = t0 + durSum ds i0 (k' + 1 + 1) := by
        rw [durSum_succ_front ds (k' + 1) i0]
        ring
      rw [h1, h2]

lemma process_loop_length (em : List (List Char × List Char)) (ds : Nat → ℚ) :
    ∀ (lines : List (List Char)) (i0 : Nat) (t0 : ℚ),
      ((process_script_loop em ds i0 t0 lines).2).length = lines.length := by
  intro lines
  induction lines with
  | nil => intro i0 t0; rfl
  | cons line rest ih =>
    intro i0 t0
    simp only [process_script_loop, List.length_cons]
    rw [ih (i0 + 1) (t0 + ds i0)]

/-! ## Audio concatenation lemmas -/

lemma ss_noSep {p : Char → Bool} {u : List Char} (h : ∀ c ∈ u, p c = false) (acc : List Char) :
    pySplitSepGo p acc u = [acc.reverse ++ u] := by
  have hs := pySplitSepGo_scan u h acc []
  rw [List.append_nil] at hs
  rw [hs, pySplitSepGo_nil]
  simp

lemma all_eq_false_of_all {p : Char → Bool} {u : List Char}
    (h : u.all (fun c => !(p c)) = true) : ∀ c ∈ u, p c = false := by
  intro c hc
  have := List.all_eq_true.1 h c hc
  simpa using this

lemma natToChars_not_special (i : Nat) (d : Char) (hd : d.toNat < 48 ∨ 57 < d.toNat) :
    ∀ c ∈ natToChars i, (fun c => decide (c = d)) c = false := by
  intro c hc
  simpa using digit_ne (natToChars_digits i c hc) hd

lemma wav_basename_audio (i : Nat) :
    wav_basename (audio_file_name i) = "audio_".data ++ natToChars i ++ ".wav".data := by
  unfold wav_basename audio_file_name pySplitSep
  have hrest : ∀ c ∈ ("audio_".data ++ natToChars i ++ ".wav".data : List Char),
      (fun c => decide (c = '/')) c = false := by
    rw [show ("audio_".data ++ natToChars i ++ ".wav".data : List Char)
        = "audio_".data ++ (natToChars i ++ ".wav".data) by simp]
    refine (List.forall_mem_append).2 ⟨all_eq_false_of_all (by decide),
      (List.forall_mem_append).2 ⟨natToChars_not_special i '/' (by decide),
        all_eq_false_of_all (by decide)⟩⟩
  rw [show ("wav/audio_".data ++ natToChars i ++ ".wav".data : List Char)
      = "wav".data ++ ('/' :: ("audio_".data ++ natToChars i ++ ".wav".data)) from by
        rw [show ("wav/audio_".data : List Char)
            = "wav".data ++ '/' :: "audio_".data from rfl]
        simp,
    pySplitSepGo_scan "wav".data (all_eq_false_of_all (by decide)) [] _,
    pySplitSepGo_sep (by simp) _ _,
    ss_noSep hrest []]
  simp

lemma sort_key_audio (i : Nat) : sort_key (audio_file_name i) = some ((i : ℕ) : ℤ) := by
  unfold sort_key
  rw [wav_basename_audio i]
  have hsplit1 : pySplitSep (fun c => c = '_') ("audio_".data ++ natToChars i ++ ".wav".data)
      = ["audio".data, natToChars i ++ ".wav".data] := by
    unfold pySplitSep
    have hrest : ∀ c ∈ (natToChars i ++ ".wav".data : List Char),
        (fun c => decide (c = '_')) c = false :=
      (List.forall_mem_append).2 ⟨natToChars_not_special i '_' (by decide),
        all_eq_false_of_all (by decide)⟩
    rw [show ("audio_".data ++ natToChars i ++ ".wav".data : List Char)
        = "audio".data ++ ('_' :: (natToChars i ++ ".wav".data)) from by
          rw [show ("audio_".data : List Char) = "audio".data ++ '_' :: [] from rfl]
          simp,
      pySplitSepGo_scan "audio".data (all_eq_false_of_all (by decide)) [] _,
      pySplitSepGo_sep (by simp) _ _,
      ss_noSep hrest []]
    simp
  rw [hsplit1]
  have hsplit2 : pySplitSep (fun c => c = '.') (natToChars i ++ ".wav".data)
      = [natToChars i, "wav".data] := by
    unfold pySplitSep
    rw [show (natToChars i ++ ".wav".data : List Char)
        = natToChars i ++ ('.' :: "wav".data) from rfl,
      pySplitSepGo_scan (natToChars i) (natToChars_not_special i '.' (by decide)) [] _,
      pySplitSepGo_sep (by simp) _ _,
      ss_noSep (all_eq_false_of_all (by decide)) []]
    simp
  simp only [hsplit2, List.headD_cons]
  rw [int_of_string_digits (natToChars_ne_nil i) (natToChars_digits i), digitsVal_natToChars]

lemma keyed_mapM (is : List Nat) :
    (is.map audio_file_name).mapM (fun f => (sort_key f).map (fun k => (k, f)))
      = some (is.map (fun i => (((i : ℕ) : ℤ), audio_file_name i))) := by
  induction is with
  | nil => rfl
  | cons i rest ih =>
    rw [List.map_cons, List.mapM_cons, sort_key_audio i]
    simp only [Option.map_some', ih]
    rfl

lemma sorted_perm_eq {α : Type} (key : α → ℤ) : ∀ {l₁ l₂ : List α}, l₁.Perm l₂ →
    l₁.Pairwise (fun a b => key a ≤ key b) → l₂.Pairwise (fun a b => key a ≤ key b) →
    (∀ a ∈ l₁, ∀ b ∈ l₁, key a = key b → a = b) → l₁ = l₂ := by
  intro l₁
  induction l₁ with
  | nil =>
    intro l₂ hp _ _ _
    exact (List.Perm.nil_eq hp).symm ▸ rfl
  | cons a t₁ ih =>
    intro l₂ hp hs1 hs2 hinj
    cases l₂ with
    | nil => exact absurd hp.symm (by simp)
    | cons b t₂ =>
      have hab : a = b := by
        have hbmem : b ∈ a :: t₁ := hp.symm.subset (by simp)
        have hamem : a ∈ b :: t₂ := hp.subset (by simp)
        rcases List.mem_cons.1 hbmem with heq | hbt
        · exact heq.symm
        · rcases List.mem_cons.1 hamem with heq | hat
          · exact heq
          · have h1 : key a ≤ key b := (List.pairwise_cons.1 hs1).1 b hbt
            have h2 : key b ≤ key a := (List.pairwise_cons.1 hs2).1 a hat
            exact hinj a (by simp) b hbmem (le_antisymm h1 h2)
      subst hab
      have hpt : t₁.Perm t₂ := hp.cons_inv
      rw [ih hpt (List.pairwise_cons.1 hs1).2 (List.pairwise_cons.1 hs2).2
        (fun x hx y hy hk => hinj x (by simp [hx]) y (by simp [hy]) hk)]

/-! ## Totality of the SRT decoder -/

lemma srt_time_len {l : List Char} (h : (pySplitSep isColonComma l).length ≠ 4) :
    srt_time_to_seconds l = none := by
  unfold srt_time_to_seconds
  split
  · rename_i heq
    rw [heq] at h
    simp at h
  · rfl

lemma matchTS_inv {l ts rest : List Char} (h : matchTimestampChars l = some (ts, rest)) :
    ∃ h1 h2 m1 m2 s1 s2 x1 x2 x3 : Char,
      ts = [h1, h2, ':', m1, m2, ':', s1, s2, ',', x1, x2, x3] ∧
      isDigitChar h1 = true ∧ isDigitChar h2 = true ∧ isDigitChar m1 = true ∧
      isDigitChar m2 = true ∧ isDigitChar s1 = true ∧ isDigitChar s2 = true ∧
      isDigitChar x1 = true ∧ isDigitChar x2 = true ∧ isDigitChar x3 = true := by
  unfold matchTimestampChars at h
  split at h
  · split at h
    · rename_i c1 c2 c3 c4 c5 c6 c7 c8 c9 c10 c11 c12 rest' hcond
      simp only [Option.some.injEq, Prod.mk.injEq] at h
      obtain ⟨he1, he2⟩ := h
      simp only [Bool.and_eq_true, decide_eq_true_eq] at hcond
      obtain ⟨⟨⟨⟨⟨⟨⟨⟨⟨⟨⟨d1, d2⟩, e3⟩, d4⟩, d5⟩, e6⟩, d7⟩, d8⟩, e9⟩, d10⟩, d11⟩, d12⟩ := hcond
      subst e3 e6 e9
      exact ⟨c1, c2, c4, c5, c7, c8, c10, c11, c12, he1.symm,
        d1, d2, d4, d5, d7, d8, d10, d11, d12⟩
    · exact absurd h (by simp)
  · exact absurd h (by simp)

lemma srt_time_of_matchTS {l ts rest : List Char} (h : matchTimestampChars l = some (ts, rest)) :
    ∃ q, srt_time_to_seconds ts = some q := by
  obtain ⟨h1, h2, m1, m2, s1, s2, x1, x2, x3, rfl, d1, d2, d3, d4, d5, d6, d7, d8, d9⟩ :=
    matchTS_inv h
  exact ⟨_, srt_time_digits d1 d2 d3 d4 d5 d6 d7 d8 d9⟩

lemma matchTimesLine_inv {times s1 s2 : List Char} (h : matchTimesLine times = some (s1, s2)) :
    (∃ q, srt_time_to_seconds s1 = some q) ∧ (∃ q, srt_time_to_seconds s2 = some q) := by
  unfold matchTimesLine at h
  cases hm : matchTimestampChars times with
  | none => rw [hm] at h; exact absurd h (by simp)
  | some pr =>
    obtain ⟨ts1, r1⟩ := pr
    rw [hm] at h
    simp only at h
    split at h
    · rename_i r2 heq2
      cases hm2 : matchTimestampChars (r2.dropWhile isPySpace) with
      | none => rw [hm2] at h; exact absurd h (by simp)
      | some pr2 =>
        obtain ⟨ts2, r3⟩ := pr2
        rw [hm2] at h
        simp only [Option.some.injEq, Prod.mk.injEq] at h
        obtain ⟨rfl, rfl⟩ := h
        exact ⟨srt_time_of_matchTS hm, srt_time_of_matchTS hm2⟩
    · exact absurd h (by simp)

lemma parse_block_total (block : List Char) : ∃ r, parse_block block = some r := by
  unfold parse_block
  split
  · rename_i l0 l1 l2 rest heq
    cases hm : matchTimesLine (pyStrip l1) with
    | none => exact ⟨none, rfl⟩
    | some pr =>
      obtain ⟨s1, s2⟩ := pr
      obtain ⟨⟨q1, hq1⟩, ⟨q2, hq2⟩⟩ := matchTimesLine_inv hm
      refine ⟨some ⟨q1, q2, q2 - q1, pyReplaceQuote (pyJoin [' '] (l2 :: rest))⟩, ?_⟩
      simp only [hq1, hq2]
  · exact ⟨none, rfl⟩

lemma mapM_parse_total : ∀ (blocks : List (List Char)),
    ∃ rs, blocks.mapM parse_block = some rs := by
  intro blocks
  induction blocks with
  | nil => exact ⟨[], rfl⟩
  | cons b rest ih =>
    obtain ⟨r, hr⟩ := parse_block_total b
    obtain ⟨rs, hrs⟩ := ih
    exact ⟨r :: rs, by rw [List.mapM_cons, hr, hrs]; rfl⟩

lemma parse_srt_total (content : List Char) : ∃ segs, parse_srt content = some segs := by
  obtain ⟨rs, hrs⟩ := mapM_parse_total (splitBlank (pyStrip content))
  exact ⟨rs.filterMap id, by rw [parse_srt, hrs]; rfl⟩

/-! ## Claim theorems -/

lemma entries_get_lines {em : List (List Char × List Char)} {ds : Nat → ℚ}
    {lines : List (List Char)} {k : Nat} {v : ℚ × ℚ × List Char}
    (h : ((process_script_sim em ds lines).2)[k]? = some v) :
    ∃ txt, lines[k]? = some txt := by
  cases hl : lines[k]? with
  | some txt => exact ⟨txt, rfl⟩
  | none =>
    have h1 : lines.length ≤ k := by
      by_contra hlt
      push_neg at hlt
      rw [List.getElem?_eq_getElem hlt] at hl
      exact absurd hl (by simp)
    have h2 : ((process_script_sim em ds lines).2)[k]? = none := by
      apply List.getElem?_eq_none
      rw [process_script_sim, process_loop_length em ds lines 0 0]
      exact h1
    rw [h2] at h
    exact absurd h (by simp)

/-- C1: for every ordered chunk sequence with measured durations `ds i ≥ 0`
(zero included), the timeline accumulator of `process_script` produces
entries with `entries[0].start = 0`, `entries[i].end = entries[i].start +
ds i` (recording the chunk's own text), and `entries[i].end =
entries[i+1].start`; a zero duration gives `start = end` and does not
break contiguity. -/
theorem C1_timeline_contiguity (em : List (List Char × List Char)) (ds : Nat → ℚ)
    (lines : List (List Char)) (hds : ∀ i, 0 ≤ ds i) :
    (∀ s e t, ((process_script_sim em ds lines).2).head? = some (s, e, t) → s = 0) ∧
    (∀ k s e t txt, ((process_script_sim em ds lines).2)[k]? = some (s, e, t) →
      lines[k]? = some txt → e = s + ds k ∧ (ds k = 0 → s = e) ∧ t = txt) ∧
    (∀ k s e t s2 e2 t2, ((process_script_sim em ds lines).2)[k]? = some (s, e, t) →
      ((process_script_sim em ds lines).2)[k + 1]? = some (s2, e2, t2) → e = s2) := by
  refine ⟨?_, ?_, ?_⟩
  · intro s e t h
    rw [List.head?_eq_getElem?] at h
    obtain ⟨txt, htxt⟩ := entries_get_lines h
    rw [process_script_sim, process_loop_get em ds lines 0 0 0 txt htxt] at h
    simp only [Option.some.injEq, Prod.mk.injEq] at h
    rw [← h.1]
    simp [durSum]
  · intro k s e t txt h htxt
    rw [process_script_sim, process_loop_get em ds lines k 0 0 txt htxt] at h
    simp only [Option.some.injEq, Prod.mk.injEq] at h
    obtain ⟨hs, he, ht⟩ := h
    have hstep : durSum ds 0 (k + 1) = durSum ds 0 k + ds k := by
      rw [show durSum ds 0 (k + 1) = durSum ds 0 k + ds (0 + k) from rfl]
      simp
    refine ⟨?_, ?_, ht.symm⟩
    · rw [← hs, ← he, hstep]
      ring
    · intro hz
      rw [← hs, ← he, hstep, hz]
      ring
  · intro k s e t s2 e2 t2 h h2
    obtain ⟨txt, htxt⟩ := entries_get_lines h
    obtain ⟨txt2, htxt2⟩ := entries_get_lines h2
    rw [process_script_sim, process_loop_get em ds lines k 0 0 txt htxt] at h
    rw [process_script_sim, process_loop_get em ds lines (k + 1) 0 0 txt2 htxt2] at h2
    simp only [Option.some.injEq, Prod.mk.injEq] at h h2
    rw [← h.2.1, ← h2.1]

/-- C1 witness: durations all `1`, chunk list `["a"]`; the hypotheses hold
and the instantiated conclusion evaluates. -/
theorem C1_timeline_contiguity_witness :
    ((0 : ℚ) ≤ 1) ∧
    ((0 + 1 : ℚ) = 0 + 1 ∧ ((1 : ℚ) = 0 → (0 : ℚ) = 0 + 1) ∧ "a".data = "a".data) :=
  ⟨by norm_num,
    (C1_timeline_contiguity [] (fun _ => (1 : ℚ)) ["a".data] (fun _ => by norm_num)).2.1
      0 0 (0 + 1) "a".data "a".data rfl rfl⟩

/-- C2 counterexample: the empty-text triple `(0, 1, "")` (its text has no
double quote) does not round-trip: the serialized block has only two
lines after the final blank-line split, so the decoder drops it. -/
theorem C2_roundtrip_counterexample :
    parse_srt (format_srt [((0 : ℚ), 1, ([] : List Char))]) = some [] ∧
    (segTriples <$> parse_srt (format_srt [((0 : ℚ), 1, ([] : List Char))]))
      ≠ some [((0 : ℚ), 1, ([] : List Char))] := by
  have h0 : srt_timestamp (0 : ℚ) = "00:00:00,000".data := by
    rw [show (0 : ℚ) = ((0 : ℕ) : ℚ) / 1000 by norm_num, srt_timestamp_div]
    decide
  have h1 : srt_timestamp (1 : ℚ) = "00:00:01,000".data := by
    rw [show (1 : ℚ) = ((1000 : ℕ) : ℚ) / 1000 by norm_num, srt_timestamp_div]
    decide
  have hfmt : format_srt [((0 : ℚ), 1, ([] : List Char))]
      = "1\n00:00:00,000 --> 00:00:01,000\n\n\n".data := by
    unfold format_srt format_srt_from srt_core
    rw [h0, h1]
    decide
  rw [hfmt]
  constructor
  · decide
  · decide

/-- C2 amended: for entries whose times are millisecond-aligned and below
24 hours and whose text is nonempty, free of line breaks, and does not end
in whitespace, encode→decode returns exactly the original (start, end,
text) triples when no text contains a double quote; in general it returns
the text with a backslash inserted before each double quote. -/
theorem C2_roundtrip_amended (entries : List (ℚ × ℚ × List Char))
    (h : ∀ p ∈ entries, entryWF p) :
    (segTriples <$> parse_srt (format_srt entries))
        = some (entries.map (fun p => (p.1, p.2.1, pyReplaceQuote p.2.2))) ∧
    ((∀ p ∈ entries, dquote ∉ p.2.2) →
      (segTriples <$> parse_srt (format_srt entries)) = some entries) := by
  have hbase : (segTriples <$> parse_srt (format_srt entries))
      = some (entries.map (fun p => (p.1, p.2.1, pyReplaceQuote p.2.2))) := by
    rw [parse_format_roundtrip h]
    simp [segTriples, segOf, List.map_map, Function.comp]
  refine ⟨hbase, fun hq => ?_⟩
  rw [hbase]
  congr 1
  rw [show entries = entries.map id by simp]
  rw [List.map_map]
  apply List.map_congr_left
  intro p hp
  simp only [Function.comp, id]
  rw [pyReplaceQuote_eq_self (hq p (by simpa using hp))]

/-- C2 witness: the single entry `(0, 3/2, "ab")` satisfies the amended
hypotheses and round-trips to itself. -/
theorem C2_roundtrip_witness :
    (segTriples <$> parse_srt (format_srt [((0 : ℚ), 3 / 2, "ab".data)]))
      = some [((0 : ℚ), 3 / 2, "ab".data)] :=
  (C2_roundtrip_amended [((0 : ℚ), 3 / 2, "ab".data)]
    (by
      intro p hp
      simp only [List.mem_singleton] at hp
      subst hp
      exact ⟨⟨0, by norm_num, by norm_num⟩, ⟨1500, by norm_num, by norm_num⟩, by decide⟩)).2
    (by
      intro p hp
      simp only [List.mem_singleton] at hp
      subst hp
      decide)

/-- C4 counterexample: with zero discovered artifacts `merge_audio_files`
returns normally with no output (`.ok none`); it does not terminate the
process (no `.exited`, no exception). -/
theorem C4_empty_counterexample :
    merge_audio_files [] true [] = PyOutcome.ok none := rfl

/-- C4 amended: for every working directory and encoder state, discovering
zero artifacts makes `merge_audio_files` print a message and return
`None` without producing a narration track and without terminating the
process — the silent-skip the spec says must not happen. -/
theorem C4_empty_amended (cwd : List Char) (encoderOk : Bool) :
    merge_audio_files cwd encoderOk [] = PyOutcome.ok none := by
  cases encoderOk <;> rfl

/-- C7: the glyph substitution affects only the text sent to the TTS
backend; the subtitle entries record every original chunk text verbatim,
for every glyph mapping and duration oracle. -/
theorem C7_subtitle_text_verbatim (em : List (List Char × List Char)) (ds : Nat → ℚ)
    (lines : List (List Char)) :
    (process_script_sim em ds lines).1 = lines.map (preprocess_for_audio em) ∧
    ((process_script_sim em ds lines).2).map (fun p => p.2.2) = lines :=
  ⟨process_loop_fst em ds lines 0 0, process_loop_texts em ds lines 0 0⟩

/-- C10 counterexample: `"aa:bb:cc,dd"` splits into exactly four fields on
':' and ',', yet `srt_time_to_seconds` still raises `ValueError` (from
`int()` on a non-numeric field) — so "raises exactly when the split does
not give four fields" is false. -/
theorem C10_valueerror_counterexample :
    (pySplitSep isColonComma ("aa:bb:cc,dd".data)).length = 4 ∧
    srt_time_to_seconds ("aa:bb:cc,dd".data) = none := by
  constructor
  · decide
  · decide

/-- C10 amended: `srt_time_to_seconds` raises when its argument does not
split into four fields (and also when a field is not a valid integer); a
timestamp matched by the decoder's fixed-width pattern always converts, so
`parse_srt` never raises on a matched timing line and returns a result for
every input. -/
theorem C10_valueerror_amended :
    (∀ l, (pySplitSep isColonComma l).length ≠ 4 → srt_time_to_seconds l = none) ∧
    (∀ times s1 s2, matchTimesLine times = some (s1, s2) →
      (∃ q, srt_time_to_seconds s1 = some q) ∧ (∃ q, srt_time_to_seconds s2 = some q)) ∧
    (∀ content, ∃ segs, parse_srt content = some segs) :=
  ⟨fun _ h => srt_time_len h, fun _ _ _ h => matchTimesLine_inv h, parse_srt_total⟩

/-- C10 witness: a one-field input is rejected. -/
theorem C10_valueerror_witness : srt_time_to_seconds ("aa".data) = none :=
  C10_valueerror_amended.1 ("aa".data) (by decide)

lemma insertLe_perm {α : Type} (le : α → α → Bool) (a : α) :
    ∀ l : List α, (insertLe le a l).Perm (a :: l) := by
  intro l
  induction l with
  | nil => exact List.Perm.refl _
  | cons b r ih =>
    by_cases hab : le a b = true
    · simp [insertLe, hab]
    · simp only [insertLe, hab, Bool.false_eq_true, if_false]
      exact (ih.cons b).trans (List.Perm.swap a b r)

lemma sortByLe_perm {α : Type} (le : α → α → Bool) :
    ∀ l : List α, (sortByLe le l).Perm l := by
  intro l
  induction l with
  | nil => exact List.Perm.refl _
  | cons a r ih => exact (insertLe_perm le a (sortByLe le r)).trans (ih.cons a)

lemma insertLe_pairwise {α : Type} {le : α → α → Bool}
    (htrans : ∀ a b c, le a b = true → le b c = true → le a c = true)
    (htot : ∀ a b, le a b = false → le b a = true) (a : α) :
    ∀ {l : List α}, l.Pairwise (fun x y => le x y = true) →
      (insertLe le a l).Pairwise (fun x y => le x y = true) := by
  intro l
  induction l with
  | nil => intro _; simp [insertLe]
  | cons b r ih =>
    intro hp
    obtain ⟨hb, hr⟩ := List.pairwise_cons.1 hp
    by_cases hab : le a b = true
    · simp only [insertLe, hab, if_true]
      refine List.pairwise_cons.2 ⟨?_, hp⟩
      intro x hx
      rcases List.mem_cons.1 hx with rfl | hx
      · exact hab
      · exact htrans a b x hab (hb x hx)
    · simp only [insertLe, hab, Bool.false_eq_true, if_false]
      refine List.pairwise_cons.2 ⟨?_, ih hr⟩
      intro x hx
      have hx' : x = a ∨ x ∈ r := by
        have := (insertLe_perm le a r).subset hx
        simpa using this
      rcases hx' with rfl | hx'
      · exact htot _ b (by simpa using hab)
      · exact hb x hx'

lemma sortByLe_pairwise {α : Type} {le : α → α → Bool}
    (htrans : ∀ a b c, le a b = true → le b c = true → le a c = true)
    (htot : ∀ a b, le a b = false → le b a = true) :
    ∀ l : List α, (sortByLe le l).Pairwise (fun x y => le x y = true) := by
  intro l
  induction l with
  | nil => simp [sortByLe]
  | cons a r ih => exact insertLe_pairwise htrans htot a ih

lemma insertLe_map {α β : Type} (f : α → β) (leA : α → α → Bool) (leB : β → β → Bool)
    (hcompat : ∀ x y, leB (f x) (f y) = leA x y) (a : α) :
    ∀ l : List α, insertLe leB (f a) (l.map f) = (insertLe leA a l).map f := by
  intro l
  induction l with
  | nil => rfl
  | cons b r ih =>
    simp only [List.map_cons, insertLe, hcompat a b]
    by_cases hab : leA a b = true
    · simp [hab]
    · simp only [hab, Bool.false_eq_true, if_false, List.map_cons, ih]

lemma sortByLe_map {α β : Type} (f : α → β) (leA : α → α → Bool) (leB : β → β → Bool)
    (hcompat : ∀ x y, leB (f x) (f y) = leA x y) :
    ∀ l : List α, sortByLe leB (l.map f) = (sortByLe leA l).map f := by
  intro l
  induction l with
  | nil => rfl
  | cons a r ih =>
    simp only [List.map_cons, sortByLe, ih]
    exact insertLe_map f leA leB hcompat a (sortByLe leA r)

/-- C3: the audio concatenator sorts the discovered artifacts by the
numeric chunk index parsed out of the filename (not lexicographically):
for any nonempty index list in any discovery order, the manifest lines
come out in ascending index order (a permutation of the input, sorted). -/
theorem C3_merge_numeric_order (cwd : List Char) (is : List Nat) (hne : is ≠ []) :
    ((sortByLe (fun a b => decide (a ≤ b)) is).Perm is) ∧
    ((sortByLe (fun a b => decide (a ≤ b)) is).Sorted (· ≤ ·)) ∧
    merge_audio_files cwd true (is.map audio_file_name)
      = PyOutcome.ok (some ((sortByLe (fun a b => decide (a ≤ b)) is).map
          (fun i => manifest_line cwd (audio_file_name i)))) := by
  have htransN : ∀ a b c : Nat, decide (a ≤ b) = true → decide (b ≤ c) = true →
      decide (a ≤ c) = true := by
    intro a b c h1 h2
    simp only [decide_eq_true_eq] at *
    omega
  have htotN : ∀ a b : Nat, decide (a ≤ b) = false → decide (b ≤ a) = true := by
    intro a b h
    simp only [decide_eq_false_iff_not] at h
    simp only [decide_eq_true_eq]
    omega
  refine ⟨sortByLe_perm _ is, ?_, ?_⟩
  · exact (sortByLe_pairwise htransN htotN is).imp (by simp)
  · have hcompat : ∀ x y : Nat,
        (fun a b : ℤ × List Char => decide (a.1 ≤ b.1))
          (((x : ℕ) : ℤ), audio_file_name x) (((y : ℕ) : ℤ), audio_file_name y)
        = decide (x ≤ y) := by
      intro x y
      simp
    have hsortmap := sortByLe_map (fun i : Nat => (((i : ℕ) : ℤ), audio_file_name i))
      (fun a b => decide (a ≤ b)) (fun a b => decide (a.1 ≤ b.1)) hcompat is
    simp only [merge_audio_files, keyed_mapM, hsortmap]
    have hnonempty : (((sortByLe (fun a b => decide (a ≤ b)) is).map
        (fun i : Nat => (((i : ℕ) : ℤ), audio_file_name i))).map (fun p => p.2)).isEmpty
        = false := by
      have h1 : sortByLe (fun a b : Nat => decide (a ≤ b)) is ≠ [] := by
        intro h
        exact hne ((List.Perm.nil_eq (h ▸ sortByLe_perm (fun a b => decide (a ≤ b)) is)).symm)
      cases hs : sortByLe (fun a b : Nat => decide (a ≤ b)) is with
      | nil => exact absurd hs h1
      | cons x xs => simp
    rw [hnonempty]
    simp [List.map_map, Function.comp]

/-- C3 witness: artifacts indexed `[2, 10, 1]` in discovery order are
concatenated in order `[1, 2, 10]`. -/
theorem C3_merge_numeric_order_witness :
    merge_audio_files [] true ([2, 10, 1].map audio_file_name)
      = PyOutcome.ok (some ([1, 2, 10].map (fun i => manifest_line [] (audio_file_name i)))) := by
  have h := (C3_merge_numeric_order [] [2, 10, 1] (by decide)).2.2
  rw [show sortByLe (fun a b => decide (a ≤ b)) [2, 10, 1] = [1, 2, 10] by decide] at h
  exact h

/-- C5 counterexample: `format_srt` applies no quote escaping — the
serialized track for a text consisting of one double quote contains that
quote with no backslash anywhere in the output. -/
theorem C5_encoder_escape_counterexample :
    format_srt [((0 : ℚ), 1, [dquote])]
      = "1\n00:00:00,000 --> 00:00:01,000\n".data ++ [dquote] ++ "\n\n".data ∧
    bslash ∉ format_srt [((0 : ℚ), 1, [dquote])] := by
  have h0 : srt_timestamp (0 : ℚ) = "00:00:00,000".data := by
    rw [show (0 : ℚ) = ((0 : ℕ) : ℚ) / 1000 by norm_num, srt_timestamp_div]
    decide
  have h1 : srt_timestamp (1 : ℚ) = "00:00:01,000".data := by
    rw [show (1 : ℚ) = ((1000 : ℕ) : ℚ) / 1000 by norm_num, srt_timestamp_div]
    decide
  have hfmt : format_srt [((0 : ℚ), 1, [dquote])]
      = "1\n00:00:00,000 --> 00:00:01,000\n".data ++ [dquote] ++ "\n\n".data := by
    unfold format_srt format_srt_from srt_core
    rw [h0, h1]
    decide
  exact ⟨hfmt, by rw [hfmt]; decide⟩

/-- C5 amended: the encoder serializes segment text verbatim (it appears
as a contiguous substring of the output, unescaped); the
backslash-before-quote escaping happens in the decoder, `parse_srt`,
whose recovered text is the original with a backslash inserted before
every double quote. -/
theorem C5_escape_in_decoder (s e : ℚ) (t : List Char) (h : entryWF (s, e, t)) :
    (∃ l r, format_srt [(s, e, t)] = l ++ t ++ r) ∧
    (segTriples <$> parse_srt (format_srt [(s, e, t)]))
      = some [(s, e, pyReplaceQuote t)] := by
  constructor
  · refine ⟨natToChars 1 ++ '\n' :: (srt_timestamp s ++ " --> ".data ++ srt_timestamp e)
      ++ ['\n'], '\n' :: '\n' :: [], ?_⟩
    unfold format_srt format_srt_from srt_core
    simp [format_srt_from]
  · rw [parse_format_roundtrip (by intro p hp; simp only [List.mem_singleton] at hp
                                   subst hp; exact h)]
    simp [segTriples, segOf]

/-- C5 witness: the text `a"b` serializes verbatim and decodes with a
backslash inserted before the quote. -/
theorem C5_escape_in_decoder_witness :
    (∃ l r, format_srt [((0 : ℚ), 3 / 2, ['a', dquote, 'b'])] = l ++ ['a', dquote, 'b'] ++ r) ∧
    (segTriples <$> parse_srt (format_srt [((0 : ℚ), 3 / 2, ['a', dquote, 'b'])]))
      = some [((0 : ℚ), 3 / 2, pyReplaceQuote ['a', dquote, 'b'])] :=
  C5_escape_in_decoder 0 (3 / 2) ['a', dquote, 'b']
    ⟨⟨0, by norm_num, by norm_num⟩, ⟨1500, by norm_num, by norm_num⟩, by decide⟩

/-- C6: the end-to-end scenario — chunks `["Hello", "World"]` with
measured durations `[1.5, 2.0]` give segments
`[(0, 1.5, "Hello"), (1.5, 3.5, "World")]`, serialized with index 1
timing `00:00:00,000 --> 00:00:01,500` and index 2 timing
`00:00:01,500 --> 00:00:03,500`. -/
theorem C6_end_to_end :
    (process_script_sim emoji_map (fun i => [(3 : ℚ) / 2, 2].getD i 0)
        ["Hello".data, "World".data]).2
      = [((0 : ℚ), 3 / 2, "Hello".data), ((3 / 2 : ℚ), 7 / 2, "World".data)] ∧
    format_srt [((0 : ℚ), 3 / 2, "Hello".data), ((3 / 2 : ℚ), 7 / 2, "World".data)]
      = ("1\n00:00:00,000 --> 00:00:01,500\nHello\n\n"
          ++ "2\n00:00:01,500 --> 00:00:03,500\nWorld\n\n").data := by
  constructor
  · simp only [process_script_sim, process_script_loop]
    norm_num
  · have h0 : srt_timestamp (0 : ℚ) = "00:00:00,000".data := by
      rw [show (0 : ℚ) = ((0 : ℕ) : ℚ) / 1000 by norm_num, srt_timestamp_div]
      decide
    have h15 : srt_timestamp (3 / 2 : ℚ) = "00:00:01,500".data := by
      rw [show (3 / 2 : ℚ) = ((1500 : ℕ) : ℚ) / 1000 by norm_num, srt_timestamp_div]
      decide
    have h35 : srt_timestamp (7 / 2 : ℚ) = "00:00:03,500".data := by
      rw [show (7 / 2 : ℚ) = ((3500 : ℕ) : ℚ) / 1000 by norm_num, srt_timestamp_div]
      decide
    simp only [format_srt, format_srt_from, srt_core]
    rw [h0, h15, h35]
    decide

/-- C8 counterexample: an unsupported extension produces the empty chunk
list — exactly the value an empty `.txt` script produces — so the
caller cannot distinguish `UnsupportedFormat` from the empty-script
condition by any returned error value. -/
theorem C8_unsupported_counterexample :
    read_script ("inputs/a.pdf".data) ("hello".data) = [] ∧
    read_script ("inputs/b.txt".data) [] = [] := by
  constructor
  · decide
  · decide

/-- C8 amended: a script whose (lowercased) path ends in neither `.srt`
nor `.txt` yields no chunks (just a logged diagnostic, no distinct error
value), so `process_script` returns early — the script is skipped — and
the batch loop continues with the remaining scripts. -/
theorem C8_unsupported_skipped (em : List (List Char × List Char)) (ds : Nat → ℚ)
    (path content : List Char) (rest : List (List Char × List Char))
    (h1 : List.isSuffixOf (".srt".data) (pyLower path) = false)
    (h2 : List.isSuffixOf (".txt".data) (pyLower path) = false) :
    read_script path content = [] ∧
    process_script_result em ds path content = none ∧
    main_sim em ds ((path, content) :: rest) = none :: main_sim em ds rest := by
  have hrs : read_script path content = [] := by
    unfold read_script
    rw [h1, h2]
    simp
  have hpr : process_script_result em ds path content = none := by
    unfold process_script_result
    rw [hrs]
    rfl
  exact ⟨hrs, hpr, by simp [main_sim, hpr]⟩

/-- C8 witness: a `.pdf` script is skipped and the batch continues. -/
theorem C8_unsupported_skipped_witness :
    read_script ("a.pdf".data) ("x".data) = [] ∧
    process_script_result [] (fun _ => 0) ("a.pdf".data) ("x".data) = none ∧
    main_sim [] (fun _ => 0) [("a.pdf".data, "x".data)] = none :: main_sim [] (fun _ => 0) [] :=
  C8_unsupported_skipped [] (fun _ => 0) ("a.pdf".data) ("x".data) [] (by decide) (by decide)

/-- C9: at and beyond 24 hours the encoder renders the hour modulo 24 —
a start of `86400.0` serializes as `00:00:00,000`, so decoding the
serialized track returns `start - 86400`, not `start`: the rendered
timestamps are neither faithful nor monotone past 24 hours. -/
theorem C9_hour_wraps_mod24 :
    format_srt [((86400 : ℚ), 86400 + 3 / 2, "a".data)]
      = "1\n00:00:00,000 --> 00:00:01,500\na\n\n".data ∧
    (segTriples <$> parse_srt (format_srt [((86400 : ℚ), 86400 + 3 / 2, "a".data)]))
      = some [((0 : ℚ), 3 / 2, "a".data)] := by
  have hw0 : srt_timestamp (86400 : ℚ) = "00:00:00,000".data := by
    rw [show (86400 : ℚ) = ((86400000 : ℕ) : ℚ) / 1000 by norm_num, srt_timestamp_div]
    decide
  have hw15 : srt_timestamp (86400 + 3 / 2 : ℚ) = "00:00:01,500".data := by
    rw [show (86400 + 3 / 2 : ℚ) = ((86401500 : ℕ) : ℚ) / 1000 by norm_num, srt_timestamp_div]
    decide
  have h0 : srt_timestamp (0 : ℚ) = "00:00:00,000".data := by
    rw [show (0 : ℚ) = ((0 : ℕ) : ℚ) / 1000 by norm_num, srt_timestamp_div]
    decide
  have h15 : srt_timestamp (3 / 2 : ℚ) = "00:00:01,500".data := by
    rw [show (3 / 2 : ℚ) = ((1500 : ℕ) : ℚ) / 1000 by norm_num, srt_timestamp_div]
    decide
  have hfmt : format_srt [((86400 : ℚ), 86400 + 3 / 2, "a".data)]
      = "1\n00:00:00,000 --> 00:00:01,500\na\n\n".data := by
    unfold format_srt format_srt_from srt_core
    rw [hw0, hw15]
    decide
  have hfmt' : format_srt [((0 : ℚ), 3 / 2, "a".data)]
      = "1\n00:00:00,000 --> 00:00:01,500\na\n\n".data := by
    unfold format_srt format_srt_from srt_core
    rw [h0, h15]
    decide
  refine ⟨hfmt, ?_⟩
  rw [hfmt, ← hfmt', parse_format_roundtrip (by
    intro p hp
    simp only [List.mem_singleton] at hp
    subst hp
    exact ⟨⟨0, by norm_num, by norm_num⟩, ⟨1500, by norm_num, by norm_num⟩, by decide⟩)]
  have ha : pyReplaceQuote "a".data = "a".data := by decide
  simp [segTriples, segOf, ha]
